import Mathlib

/-!
Shallow embedding of the LinkToss hierarchical-tree subsystem
(Deck folders and threaded Comments with soft delete).

Stores are lists of records; Django querysets become list filters;
UUIDs become `Nat`; timestamps become `Nat`.  Recursive walks over
parent links are fuel-indexed (`none` = the loop has not finished
within the given bound).  A raised exception is an `Except.error`;
since every service method runs inside `transaction.atomic`, an
error result models a rolled-back transaction, and the `run…`
wrappers below make the resulting (unchanged) store explicit.
-/

set_option maxRecDepth 4000
set_option linter.unusedSectionVars false

/-- Interface shared by the two soft-deletable tree kinds (Deck, Comment):
both carry an id, a nullable parent id, the `is_deleted` / `deleted_at`
soft-delete pair, and a delete operation that stamps them.
`mark` is modelled from the spec: `SoftDeleteModel.delete` (the
`common/abstract_models/soft_delete_model.py` file is not in the sources)
sets `is_deleted = true` and `deleted_at = now`, touching nothing else. -/
class SoftNode (α : Type) where
  nid : α → Nat
  par : α → Option Nat
  delAt : α → Option Nat
  isDel : α → Bool
  mark : α → Nat → α
  mark_nid : ∀ a n, nid (mark a n) = nid a
  mark_par : ∀ a n, par (mark a n) = par a
  mark_delAt : ∀ a n, delAt (mark a n) = some n
  mark_isDel : ∀ a n, isDel (mark a n) = true
  mark_idem : ∀ a n, mark (mark a n) n = mark a n

open SoftNode

variable {α : Type} [SoftNode α] [DecidableEq α]

/-- Row lookup by primary key (Django `objects.get(id=i)` /
foreign-key dereference; no soft-delete filtering). -/
def findN (s : List α) (i : Nat) : Option α :=
  s.find? (fun a => nid a == i)

/-- The ids of the currently-live children of node `i`
(`objects.filter(parent=node, deleted_at__isnull=True)`). -/
def liveKids (s : List α) (i : Nat) : List Nat :=
  (s.filter (fun a => par a == some i && delAt a == (none : Option Nat))).map nid

/-- Overwrite the row with id `i` by its soft-deleted version
(the `delete()` call at the end of `_soft_delete_recursive`). -/
def markDeleted (s : List α) (i : Nat) (now : Nat) : List α :=
  s.map (fun a => if nid a == i then mark a now else a)

/-- `_soft_delete_recursive` (identical in `DeckService` and
`CommentService`): fetch the live children, recurse into each,
then soft-delete the node itself.  Fuel bounds the call depth. -/
def sdr (now : Nat) : Nat → List α → Nat → Option (List α)
  | 0, _, _ => none
  | fuel+1, s, i =>
    match (liveKids s i).foldlM (fun t c => sdr now fuel t c) s with
    | none => none
    | some t => some (markDeleted t i now)

/-- The sibling fold inside `sdr`, named for the lemmas below. -/
def sdrList (now fuel : Nat) (s : List α) (cs : List Nat) : Option (List α) :=
  cs.foldlM (fun t c => sdr now fuel t c) s

theorem sdr_succ (now fuel : Nat) (s : List α) (i : Nat) :
    sdr now (fuel+1) s i =
      match sdrList now fuel s (liveKids s i) with
      | none => none
      | some t => some (markDeleted t i now) := rfl

theorem sdrList_nil (now fuel : Nat) (s : List α) :
    sdrList now fuel s ([] : List Nat) = some s := rfl

theorem sdrList_cons (now fuel : Nat) (s : List α) (c : Nat) (cs : List Nat) :
    sdrList now fuel s (c :: cs) =
      match sdr now fuel s c with
      | none => none
      | some t => sdrList now fuel t cs := by
  simp only [sdrList, List.foldlM_cons]
  cases sdr now fuel s c <;> rfl

/-- One upward step along a live parent link: the parent id of node
`c`, provided `c` is stored and live. -/
def liveParentOf (s : List α) (c : Nat) : Option Nat :=
  match findN s c with
  | none => none
  | some a => if delAt a = none then par a else none

/-- Iterated live-parent steps. -/
def upIter (s : List α) : Nat → Nat → Option Nat
  | 0, i => some i
  | k+1, i =>
    match liveParentOf s i with
    | none => none
    | some p => upIter s k p

/-- `m` is a descendant of `n` through a chain of live parent links. -/
def LiveDesc (s : List α) (n m : Nat) : Prop :=
  ∃ k, upIter s (k+1) m = some n

/-- Iterated raw parent steps (no liveness filtering) — an id `p` with
`parIter s (k+1) m = some p` is an ancestor of `m` in the stored data. -/
def parIter (s : List α) : Nat → Nat → Option Nat
  | 0, i => some i
  | k+1, i =>
    match findN s i with
    | none => none
    | some a =>
      match par a with
      | none => none
      | some p => parIter s k p

/-- Stored primary keys are distinct. -/
def NodupIds (s : List α) : Prop := (s.map nid).Nodup

instance (s : List α) : Decidable (NodupIds s) := by
  unfold NodupIds; infer_instance

/-- No live-parent chain returns to its starting node. -/
def Acyclic (s : List α) : Prop := ∀ i k, upIter s (k+1) i ≠ some i

/-- Soft-delete closure on the pre-state: the parent of a live node is
live (bounded, decidable formulation). -/
def ClosedStore (s : List α) : Prop :=
  ∀ a ∈ s, ∀ b ∈ s, delAt a = none → par a = some (nid b) → delAt b = none

instance (s : List α) : Decidable (ClosedStore s) := by
  unfold ClosedStore; infer_instance

/-- Decidable sufficient condition for `Acyclic`: a rank function that
strictly drops along live parent links. -/
def RankDec (s : List α) (rk : Nat → Nat) : Prop :=
  ∀ a ∈ s, ∀ b ∈ s, delAt a = none → par a = some (nid b) →
    findN s (nid b) = some b → rk (nid b) < rk (nid a)

instance (s : List α) (rk : Nat → Nat) : Decidable (RankDec s rk) := by
  unfold RankDec; infer_instance

/-! ### Basic facts about lookups and upward chains -/

theorem findN_nid {s : List α} {i : Nat} {a : α}
    (h : findN s i = some a) : nid a = i ∧ a ∈ s := by
  have h1 := List.find?_some h
  have h2 := List.mem_of_find?_eq_some h
  simp only [beq_iff_eq] at h1
  exact ⟨h1, h2⟩

theorem findN_cons_of_eq {a : α} {s : List α} {i : Nat} (h : nid a = i) :
    findN (a :: s) i = some a := by
  simp only [findN]
  exact List.find?_cons_of_pos _ (by simpa using h)

theorem findN_cons_of_ne {a : α} {s : List α} {i : Nat} (h : nid a ≠ i) :
    findN (a :: s) i = findN s i := by
  simp only [findN]
  exact List.find?_cons_of_neg _ (by simpa using h)

theorem findN_of_mem_nodup {s : List α} {a : α}
    (hnd : NodupIds s) (ha : a ∈ s) : findN s (nid a) = some a := by
  induction s with
  | nil => cases ha
  | cons b t ih =>
    simp only [NodupIds, List.map_cons, List.nodup_cons] at hnd
    rcases List.mem_cons.mp ha with rfl | hat
    · exact findN_cons_of_eq rfl
    · by_cases hb : nid b = nid a
      · exact absurd (hb ▸ List.mem_map_of_mem nid hat) hnd.1
      · rw [findN_cons_of_ne hb]
        exact ih hnd.2 hat

theorem upIter_add (s : List α) (a b i : Nat) :
    upIter s (a + b) i =
      match upIter s a i with
      | none => none
      | some j => upIter s b j := by
  induction a generalizing i with
  | zero => simp [upIter]
  | succ a ih =>
    have : a + 1 + b = (a + b) + 1 := by omega
    rw [this]
    simp only [upIter]
    cases liveParentOf s i with
    | none => rfl
    | some p => exact ih p

theorem upIter_split {s : List α} {a b i j : Nat}
    (h : upIter s (a + b) i = some j) :
    ∃ mid, upIter s a i = some mid ∧ upIter s b mid = some j := by
  rw [upIter_add] at h
  cases hmid : upIter s a i with
  | none => rw [hmid] at h; cases h
  | some mid => rw [hmid] at h; exact ⟨mid, rfl, h⟩

theorem upIter_one (s : List α) (i : Nat) :
    upIter s 1 i = liveParentOf s i := by
  cases h : liveParentOf s i <;> simp [upIter, h]

theorem upIter_snoc {s : List α} {k i j p : Nat}
    (h : upIter s k i = some j) (hs : liveParentOf s j = some p) :
    upIter s (k + 1) i = some p := by
  have hadd := upIter_add s k 1 i
  rw [h] at hadd
  rw [hadd]
  simp [upIter, hs]

/-- Two successful live-parent walks from the same node to the same
target have equal length on acyclic data. -/
theorem twoPaths {s : List α} (hac : Acyclic s) {x i a b : Nat}
    (ha : upIter s a x = some i) (hb : upIter s b x = some i) : a = b := by
  by_contra hne
  rcases Nat.lt_or_ge a b with hlt | hge
  · have : b = a + (b - a) := by omega
    rw [this] at hb
    rcases upIter_split hb with ⟨mid, h1, h2⟩
    rw [ha] at h1
    cases h1
    have hd : b - a = (b - a - 1) + 1 := by omega
    rw [hd] at h2
    exact hac i _ h2
  · have hlt : b < a := by omega
    have : a = b + (a - b) := by omega
    rw [this] at ha
    rcases upIter_split ha with ⟨mid, h1, h2⟩
    rw [hb] at h1
    cases h1
    have hd : a - b = (a - b - 1) + 1 := by omega
    rw [hd] at h2
    exact hac i _ h2

theorem liveParentOf_elim {s : List α} {c p : Nat}
    (h : liveParentOf s c = some p) :
    ∃ a, findN s c = some a ∧ delAt a = none ∧ par a = some p := by
  unfold liveParentOf at h
  split at h
  · cases h
  · rename_i a hf
    by_cases hd : delAt a = none
    · rw [if_pos hd] at h; exact ⟨a, hf, hd, h⟩
    · rw [if_neg hd] at h; cases h

theorem liveParentOf_intro {s : List α} {c : Nat} {a : α}
    (hf : findN s c = some a) (hd : delAt a = none) :
    liveParentOf s c = par a := by
  unfold liveParentOf
  rw [hf]
  exact if_pos hd

/-! ### The `MarkedTo` relation: the target store is the source store
with some rows soft-delete-stamped at time `now` and nothing else. -/

def MarkedTo (now : Nat) (s t : List α) : Prop :=
  List.Forall₂ (fun a b => b = a ∨ b = mark a now) s t

theorem MarkedTo.refl (now : Nat) (s : List α) : MarkedTo now s s := by
  induction s with
  | nil => exact List.Forall₂.nil
  | cons a t ih => exact List.Forall₂.cons (Or.inl rfl) ih

theorem MarkedTo.trans {now : Nat} {s t u : List α}
    (h1 : MarkedTo now s t) (h2 : MarkedTo now t u) : MarkedTo now s u := by
  induction h1 generalizing u with
  | nil => cases h2; exact List.Forall₂.nil
  | cons hab h ih =>
    cases h2 with
    | cons hbc h2t =>
      refine List.Forall₂.cons ?_ (ih h2t)
      rcases hab with rfl | rfl
      · exact hbc
      · rcases hbc with rfl | rfl
        · exact Or.inr rfl
        · exact Or.inr (mark_idem _ _)

theorem markDeleted_markedTo (now : Nat) (s : List α) (i : Nat) :
    MarkedTo now s (markDeleted s i now) := by
  induction s with
  | nil => exact List.Forall₂.nil
  | cons a t ih =>
    simp only [markDeleted, List.map_cons]
    refine List.Forall₂.cons ?_ ih
    by_cases h : nid a == i
    · rw [if_pos h]; exact Or.inr rfl
    · rw [if_neg h]; exact Or.inl rfl

theorem MarkedTo.nids_eq {now : Nat} {s t : List α}
    (h : MarkedTo now s t) : s.map nid = t.map nid := by
  induction h with
  | nil => rfl
  | cons hab h ih =>
    simp only [List.map_cons, ih, List.cons.injEq, and_true]
    rcases hab with rfl | rfl
    · rfl
    · exact (mark_nid _ _).symm

theorem MarkedTo.nodup {now : Nat} {s t : List α}
    (h : MarkedTo now s t) (hnd : NodupIds s) : NodupIds t := by
  unfold NodupIds at *
  rwa [← h.nids_eq]

theorem markedTo_findN {now : Nat} {s t : List α}
    (h : MarkedTo now s t) (i : Nat) :
    (findN s i = none ∧ findN t i = none) ∨
      ∃ a, findN s i = some a ∧
        (findN t i = some a ∨ findN t i = some (mark a now)) := by
  induction h with
  | nil => exact Or.inl ⟨rfl, rfl⟩
  | @cons a b s' t' hab h ih =>
    by_cases hi : nid a = i
    · refine Or.inr ⟨a, findN_cons_of_eq hi, ?_⟩
      rcases hab with rfl | rfl
      · exact Or.inl (findN_cons_of_eq hi)
      · exact Or.inr (findN_cons_of_eq (by rw [mark_nid]; exact hi))
    · have hbi : nid b ≠ i := by
        rcases hab with rfl | rfl
        · exact hi
        · rw [mark_nid]; exact hi
      rw [findN_cons_of_ne hi, findN_cons_of_ne hbi]
      exact ih

theorem markedTo_findN_fwd {now : Nat} {s t : List α} {i : Nat} {a : α}
    (h : MarkedTo now s t) (hf : findN s i = some a) :
    findN t i = some a ∨ findN t i = some (mark a now) := by
  rcases markedTo_findN h i with ⟨h1, _⟩ | ⟨b, hb, hbu⟩
  · rw [h1] at hf; cases hf
  · rw [hb] at hf
    injection hf with hf
    subst hf
    exact hbu

theorem markedTo_findN_back_live {now : Nat} {s t : List α} {i : Nat} {b : α}
    (h : MarkedTo now s t) (hf : findN t i = some b) (hd : delAt b = none) :
    findN s i = some b := by
  rcases markedTo_findN h i with ⟨_, h2⟩ | ⟨a, ha, hau⟩
  · rw [h2] at hf; cases hf
  · rcases hau with h2 | h2
    · rw [h2] at hf
      injection hf with hf
      subst hf
      exact ha
    · rw [h2] at hf
      injection hf with hf
      rw [← hf, mark_delAt] at hd
      cases hd

theorem marked_persist {now : Nat} {t u : List α} {m : Nat} {a : α}
    (h : MarkedTo now t u) (hf : findN t m = some (mark a now)) :
    findN u m = some (mark a now) := by
  rcases markedTo_findN h m with ⟨h1, _⟩ | ⟨b, hb, hbu⟩
  · rw [h1] at hf; cases hf
  · rw [hb] at hf
    injection hf with hf
    subst hf
    rcases hbu with h2 | h2
    · exact h2
    · rw [h2, mark_idem]

theorem markedTo_liveParentOf {now : Nat} {s t : List α} {i p : Nat}
    (h : MarkedTo now s t) (hl : liveParentOf t i = some p) :
    liveParentOf s i = some p := by
  rcases liveParentOf_elim hl with ⟨b, hf, hd, hp⟩
  have hs := markedTo_findN_back_live h hf hd
  rw [liveParentOf_intro hs hd]
  exact hp

theorem markedTo_upIter {now : Nat} {s t : List α} {i j : Nat}
    (h : MarkedTo now s t) : ∀ k, upIter t k i = some j → upIter s k i = some j := by
  intro k
  induction k generalizing i with
  | zero => intro hu; exact hu
  | succ k ih =>
    intro hu
    simp only [upIter] at hu ⊢
    cases hl : liveParentOf t i with
    | none => rw [hl] at hu; cases hu
    | some p =>
      rw [hl] at hu
      rw [markedTo_liveParentOf h hl]
      exact ih hu

theorem markedTo_acyclic {now : Nat} {s t : List α}
    (h : MarkedTo now s t) (hac : Acyclic s) : Acyclic t := by
  intro i k hcy
  exact hac i k (markedTo_upIter h (k+1) hcy)

theorem markDeleted_cons (a : α) (s : List α) (i now : Nat) :
    markDeleted (a :: s) i now =
      (if nid a == i then mark a now else a) :: markDeleted s i now := rfl

theorem markDeleted_findN_ne {s : List α} {i m now : Nat} (h : m ≠ i) :
    findN (markDeleted s i now) m = findN s m := by
  induction s with
  | nil => rfl
  | cons a s ih =>
    rw [markDeleted_cons]
    by_cases ha : nid a = i
    · rw [if_pos (by simpa using ha)]
      have h1 : nid (mark a now) ≠ m := by
        rw [mark_nid, ha]
        exact fun hh => h hh.symm
      have h2 : nid a ≠ m := by
        rw [ha]
        exact fun hh => h hh.symm
      rw [findN_cons_of_ne h1, findN_cons_of_ne h2, ih]
    · rw [if_neg (by simpa using ha)]
      by_cases ham : nid a = m
      · rw [findN_cons_of_eq ham, findN_cons_of_eq ham]
      · rw [findN_cons_of_ne ham, findN_cons_of_ne ham, ih]

theorem markDeleted_findN_eq {s : List α} {i now : Nat} {a : α}
    (h : findN s i = some a) :
    findN (markDeleted s i now) i = some (mark a now) := by
  induction s with
  | nil => cases h
  | cons b s ih =>
    rw [markDeleted_cons]
    by_cases hb : nid b = i
    · rw [findN_cons_of_eq hb] at h
      injection h with h
      subst h
      rw [if_pos (by simpa using hb), findN_cons_of_eq (by rw [mark_nid]; exact hb)]
    · rw [findN_cons_of_ne hb] at h
      rw [if_neg (by simpa using hb), findN_cons_of_ne hb]
      exact ih h

theorem liveKids_mem_elim {s : List α} {i c : Nat} (h : c ∈ liveKids s i) :
    ∃ r, r ∈ s ∧ nid r = c ∧ par r = some i ∧ delAt r = none := by
  unfold liveKids at h
  rcases List.mem_map.mp h with ⟨r, hr, hc⟩
  rcases List.mem_filter.mp hr with ⟨hrs, hp⟩
  simp only [Bool.and_eq_true, beq_iff_eq] at hp
  exact ⟨r, hrs, hc, hp.1, hp.2⟩

theorem liveKids_nodup {s : List α} (hnd : NodupIds s) (i : Nat) :
    (liveKids s i).Nodup := by
  unfold liveKids
  exact hnd.sublist (List.Sublist.map nid (List.filter_sublist s))

/-! ### The cascade only stamps rows, and only rows inside the live
subtree of the deleted node -/

theorem sdrList_marked_of {now fuel : Nat}
    (hs : ∀ (t : List α) (i : Nat) (t' : List α),
      sdr now fuel t i = some t' → MarkedTo now t t') :
    ∀ (cs : List Nat) (s s' : List α),
      sdrList now fuel s cs = some s' → MarkedTo now s s' := by
  intro cs
  induction cs with
  | nil =>
    intro s s' h
    rw [sdrList_nil] at h
    injection h with h
    subst h
    exact MarkedTo.refl now s
  | cons c cs ih =>
    intro s s' h
    rw [sdrList_cons] at h
    cases h1 : sdr now fuel s c with
    | none => rw [h1] at h; cases h
    | some t =>
      rw [h1] at h
      exact (hs s c t h1).trans (ih t s' h)

theorem sdr_marked {now : Nat} :
    ∀ (fuel : Nat) (s : List α) (i : Nat) (s' : List α),
      sdr now fuel s i = some s' → MarkedTo now s s' := by
  intro fuel
  induction fuel with
  | zero => intro s i s' h; cases h
  | succ fuel ih =>
    intro s i s' h
    rw [sdr_succ] at h
    cases ht : sdrList now fuel s (liveKids s i) with
    | none => rw [ht] at h; cases h
    | some t =>
      rw [ht] at h
      injection h with h
      subst h
      exact (sdrList_marked_of ih _ s t ht).trans (markDeleted_markedTo now t i)

theorem sdrList_marked {now fuel : Nat} {s s' : List α} {cs : List Nat}
    (h : sdrList now fuel s cs = some s') : MarkedTo now s s' :=
  sdrList_marked_of (fun t i t' ht => sdr_marked fuel t i t' ht) cs s s' h

theorem sdrList_sound_of {now fuel : Nat}
    (hs : ∀ (t : List α) (i : Nat) (t' : List α), NodupIds t →
      sdr now fuel t i = some t' →
      ∀ m a, findN t m = some a →
        findN t' m = some a ∨
          (findN t' m = some (mark a now) ∧
            (m = i ∨ (delAt a = none ∧ LiveDesc t i m)))) :
    ∀ (cs : List Nat) (s s' : List α), NodupIds s →
      sdrList now fuel s cs = some s' →
      ∀ m a, findN s m = some a →
        findN s' m = some a ∨
          (findN s' m = some (mark a now) ∧
            ∃ c ∈ cs, (m = c ∨ (delAt a = none ∧ LiveDesc s c m))) := by
  intro cs
  induction cs with
  | nil =>
    intro s s' hnd h m a hm
    rw [sdrList_nil] at h
    injection h with h
    subst h
    exact Or.inl hm
  | cons c cs ih =>
    intro s s' hnd h m a hm
    rw [sdrList_cons] at h
    cases h1 : sdr now fuel s c with
    | none => rw [h1] at h; cases h
    | some t =>
      rw [h1] at h
      have hst : MarkedTo now s t := sdr_marked fuel s c t h1
      have hndt : NodupIds t := hst.nodup hnd
      rcases hs s c t hnd h1 m a hm with hm1 | ⟨hm1, hcase⟩
      · rcases ih t s' hndt h m a hm1 with h2 | ⟨h2, c', hc', hcc⟩
        · exact Or.inl h2
        · refine Or.inr ⟨h2, c', List.mem_cons_of_mem _ hc', ?_⟩
          rcases hcc with rfl | ⟨hda, k, hk⟩
          · exact Or.inl rfl
          · exact Or.inr ⟨hda, k, markedTo_upIter hst (k+1) hk⟩
      · have h2 : findN s' m = some (mark a now) :=
          marked_persist (sdrList_marked h) hm1
        exact Or.inr ⟨h2, c, List.mem_cons_self c cs, hcase⟩

theorem sdr_sound {now : Nat} :
    ∀ (fuel : Nat) (s : List α) (i : Nat) (s' : List α), NodupIds s →
      sdr now fuel s i = some s' →
      ∀ m a, findN s m = some a →
        findN s' m = some a ∨
          (findN s' m = some (mark a now) ∧
            (m = i ∨ (delAt a = none ∧ LiveDesc s i m))) := by
  intro fuel
  induction fuel with
  | zero => intro s i s' _ h; cases h
  | succ fuel ih =>
    intro s i s' hnd h m a hm
    rw [sdr_succ] at h
    cases ht : sdrList now fuel s (liveKids s i) with
    | none => rw [ht] at h; cases h
    | some t =>
      rw [ht] at h
      injection h with h
      subst h
      rcases sdrList_sound_of ih _ s t hnd ht m a hm with h1 | ⟨h1, c, hc, hcase⟩
      · by_cases hmi : m = i
        · subst hmi
          exact Or.inr ⟨markDeleted_findN_eq h1, Or.inl rfl⟩
        · exact Or.inl (by rw [markDeleted_findN_ne hmi]; exact h1)
      · have hval : findN (markDeleted t i now) m = some (mark a now) := by
          by_cases hmi : m = i
          · subst hmi
            rw [markDeleted_findN_eq h1, mark_idem]
          · rw [markDeleted_findN_ne hmi]
            exact h1
        refine Or.inr ⟨hval, ?_⟩
        rcases liveKids_mem_elim hc with ⟨r, hrs, hrc, hrp, hrd⟩
        have hfr : findN s c = some r := hrc ▸ findN_of_mem_nodup hnd hrs
        have hlpc : liveParentOf s c = some i := by
          rw [liveParentOf_intro hfr hrd, hrp]
        rcases hcase with rfl | ⟨hda, k, hk⟩
        · -- m is itself the live child c of i
          rw [hfr] at hm
          injection hm with hm
          subst hm
          refine Or.inr ⟨hrd, 0, ?_⟩
          rw [upIter_one]
          exact hlpc
        · exact Or.inr ⟨hda, k+1, upIter_snoc hk hlpc⟩

theorem sdrList_sound {now fuel : Nat} {s s' : List α} {cs : List Nat}
    (hnd : NodupIds s) (h : sdrList now fuel s cs = some s') :
    ∀ m a, findN s m = some a →
      findN s' m = some a ∨
        (findN s' m = some (mark a now) ∧
          ∃ c ∈ cs, (m = c ∨ (delAt a = none ∧ LiveDesc s c m))) :=
  sdrList_sound_of (fun t i t' hnt ht => sdr_sound fuel t i t' hnt ht) cs s s' hnd h

theorem sdrList_append {now fuel : Nat} {s s' : List α} (l1 l2 : List Nat)
    (h : sdrList now fuel s (l1 ++ l2) = some s') :
    ∃ t, sdrList now fuel s l1 = some t ∧ sdrList now fuel t l2 = some s' := by
  induction l1 generalizing s with
  | nil => exact ⟨s, rfl, h⟩
  | cons c l1 ih =>
    rw [List.cons_append, sdrList_cons] at h
    cases h1 : sdr now fuel s c with
    | none => rw [h1] at h; cases h
    | some t =>
      rw [h1] at h
      rcases ih h with ⟨u, hu1, hu2⟩
      refine ⟨u, ?_, hu2⟩
      rw [sdrList_cons, h1]
      exact hu1

theorem liveKids_mem_intro {s : List α} {i c : Nat} {r : α}
    (hf : findN s c = some r) (hp : par r = some i) (hd : delAt r = none) :
    c ∈ liveKids s i := by
  rcases findN_nid hf with ⟨hnid, hmem⟩
  unfold liveKids
  refine List.mem_map.mpr ⟨r, List.mem_filter.mpr ⟨hmem, ?_⟩, hnid⟩
  simp [hp, hd]

theorem sdr_marks_root {now fuel : Nat} {t t' : List α} {c : Nat} {a : α}
    (h : sdr now fuel t c = some t') (hf : findN t c = some a) :
    findN t' c = some (mark a now) := by
  cases fuel with
  | zero => cases h
  | succ g =>
    rw [sdr_succ] at h
    cases hu : sdrList now g t (liveKids t c) with
    | none => rw [hu] at h; cases h
    | some u =>
      rw [hu] at h
      injection h with h
      subst h
      rcases markedTo_findN_fwd (sdrList_marked hu) hf with h1 | h1
      · exact markDeleted_findN_eq h1
      · rw [markDeleted_findN_eq h1, mark_idem]

theorem upIter_preserved {s t : List α} :
    ∀ (k m c : Nat), upIter s k m = some c →
      (∀ r x, r ≤ k → upIter s r m = some x → findN t x = findN s x) →
      upIter t k m = some c := by
  intro k
  induction k with
  | zero => intro m c h _; exact h
  | succ k ihk =>
    intro m c h hpr
    simp only [upIter] at h ⊢
    cases hlp : liveParentOf s m with
    | none => rw [hlp] at h; cases h
    | some v =>
      rw [hlp] at h
      have hf : findN t m = findN s m := hpr 0 m (Nat.zero_le _) rfl
      have hlpt : liveParentOf t m = some v := by
        unfold liveParentOf at hlp ⊢
        rw [hf]
        exact hlp
      rw [hlpt]
      apply ihk v c h
      intro r x hr hx
      apply hpr (r+1) x (by omega)
      have hcomm : r + 1 = 1 + r := by omega
      rw [hcomm, upIter_add, upIter_one, hlp]
      exact hx

/-- Completeness of the cascade: on well-formed data (distinct ids,
acyclic live-parent chains), every node that was reachable from the
deleted node via a chain of live parent links ends up soft-deleted. -/
theorem sdr_complete {now : Nat} :
    ∀ (fuel : Nat) (s : List α) (i : Nat) (s' : List α), NodupIds s → Acyclic s →
      sdr now fuel s i = some s' →
      ∀ m a k, findN s m = some a → upIter s (k+1) m = some i →
        findN s' m = some (mark a now) := by
  intro fuel
  induction fuel with
  | zero => intro s i s' _ _ h; cases h
  | succ fuel ih =>
    intro s i s' hnd hac h m a k hm hchain
    have hmi : m ≠ i := by
      intro he
      exact hac i k (he ▸ hchain)
    rw [sdr_succ] at h
    cases ht : sdrList now fuel s (liveKids s i) with
    | none => rw [ht] at h; cases h
    | some tall =>
      rw [ht] at h
      injection h with h
      subst h
      rcases upIter_split (a := k) (b := 1) hchain with ⟨c, hkc, hc2⟩
      rw [upIter_one] at hc2
      rcases liveParentOf_elim hc2 with ⟨rc, hfrc, hdrc, hprc⟩
      have hcmem : c ∈ liveKids s i := liveKids_mem_intro hfrc hprc hdrc
      rcases List.append_of_mem hcmem with ⟨pre, post, hcs⟩
      have hnodupcs := liveKids_nodup hnd i
      rw [hcs] at hnodupcs
      have hcpre : c ∉ pre := by
        rcases List.nodup_append.mp hnodupcs with ⟨-, -, hdisj⟩
        intro hin
        exact hdisj hin (List.mem_cons_self c post)
      rw [hcs] at ht
      rcases sdrList_append pre (c :: post) ht with ⟨t1, hpre, hrest⟩
      rw [sdrList_cons] at hrest
      cases h2 : sdr now fuel t1 c with
      | none => rw [h2] at hrest; cases hrest
      | some t2 =>
        rw [h2] at hrest
        have hpres : ∀ r x, r ≤ k → upIter s r m = some x →
            findN t1 x = findN s x := by
          intro r x hr hx
          have hxsome : ∃ ax, findN s x = some ax := by
            rcases Nat.eq_or_lt_of_le hr with he | hlt
            · subst he
              rw [hkc] at hx
              injection hx with hx
              subst hx
              exact ⟨rc, hfrc⟩
            · have hdec : k = r + (k - r) := by omega
              rw [hdec] at hkc
              rcases upIter_split hkc with ⟨mid, hmid, hrest2⟩
              rw [hx] at hmid
              injection hmid with hmid
              subst hmid
              have hkr : k - r = (k - r - 1) + 1 := by omega
              rw [hkr] at hrest2
              simp only [upIter] at hrest2
              cases hlp : liveParentOf s x with
              | none => rw [hlp] at hrest2; cases hrest2
              | some p =>
                rcases liveParentOf_elim hlp with ⟨ax, hax, -, -⟩
                exact ⟨ax, hax⟩
          rcases hxsome with ⟨ax, hax⟩
          rcases sdrList_sound hnd hpre x ax hax with h3 | ⟨h3, c', hc', hcase⟩
          · rw [h3, hax]
          · exfalso
            have hc'cs : c' ∈ liveKids s i := by
              rw [hcs]
              exact List.mem_append_left _ hc'
            rcases liveKids_mem_elim hc'cs with ⟨r', hr's, hr'c, hr'p, hr'd⟩
            have hfr' : findN s c' = some r' := hr'c ▸ findN_of_mem_nodup hnd hr's
            have hlpc' : liveParentOf s c' = some i := by
              rw [liveParentOf_intro hfr' hr'd, hr'p]
            have hbeta : upIter s (k + 1 - r) x = some i := by
              have hdec : k + 1 = r + (k + 1 - r) := by omega
              rw [hdec] at hchain
              rcases upIter_split hchain with ⟨mid, hmid, hrest2⟩
              rw [hx] at hmid
              injection hmid with hmid
              subst hmid
              exact hrest2
            rcases hcase with rfl | ⟨hda, e, he⟩
            · have halpha : upIter s 1 x = some i := by
                rw [upIter_one]
                exact hlpc'
              have heq := twoPaths hac halpha hbeta
              have hrk : r = k := by omega
              subst hrk
              rw [hkc] at hx
              injection hx with hx
              exact hcpre (hx ▸ hc')
            · have halpha : upIter s (e + 1 + 1) x = some i := upIter_snoc he hlpc'
              have heq := twoPaths hac halpha hbeta
              have hc'c : c' = c := by
                have hre : r + (e + 1) = k := by omega
                have hval : upIter s (r + (e + 1)) m = some c' := by
                  rw [upIter_add, hx]
                  exact he
                rw [hre, hkc] at hval
                injection hval with hval
                exact hval.symm
              exact hcpre (hc'c ▸ hc')
        have hfm_t1 : findN t1 m = some a := by
          rw [hpres 0 m (Nat.zero_le k) rfl]
          exact hm
        have hfm_t2 : findN t2 m = some (mark a now) := by
          cases k with
          | zero =>
            have hxc : m = c := by
              simp only [upIter] at hkc
              injection hkc
            rw [hxc] at hfm_t1 ⊢
            exact sdr_marks_root h2 hfm_t1
          | succ kk =>
            have hchain_t1 : upIter t1 (kk + 1) m = some c := by
              apply upIter_preserved (kk+1) m c hkc
              intro r x hr hx
              exact hpres r x (by omega) hx
            have hnd1 : NodupIds t1 := (sdrList_marked hpre).nodup hnd
            have hac1 : Acyclic t1 := markedTo_acyclic (sdrList_marked hpre) hac
            exact ih t1 c t2 hnd1 hac1 h2 m a kk hfm_t1 hchain_t1
        have hfm_tall : findN tall m = some (mark a now) :=
          marked_persist (sdrList_marked hrest) hfm_t2
        rw [markDeleted_findN_ne hmi]
        exact hfm_tall

theorem parIter_succ_elim {s : List α} {k m j : Nat}
    (h : parIter s (k+1) m = some j) :
    ∃ a p, findN s m = some a ∧ par a = some p ∧ parIter s k p = some j := by
  simp only [parIter] at h
  cases hf : findN s m with
  | none => rw [hf] at h; cases h
  | some a =>
    rw [hf] at h
    have h2 : (match par a with
        | none => none
        | some p => parIter s k p) = some j := h
    cases hp : par a with
    | none => rw [hp] at h2; cases h2
    | some p =>
      rw [hp] at h2
      exact ⟨a, p, rfl, hp, h2⟩

/-- After a successful cascade on well-formed closed data, the direct
parent of any live node is live. -/
theorem sdr_closed_step {now fuel : Nat} {s s' : List α} {i : Nat}
    (hnd : NodupIds s) (hac : Acyclic s) (hcl : ClosedStore s)
    (h : sdr now fuel s i = some s') :
    ∀ m a p b, findN s' m = some a → delAt a = none → par a = some p →
      findN s' p = some b → delAt b = none := by
  intro m a p b hfm hda hpa hfp
  have hmk : MarkedTo now s s' := sdr_marked fuel s i s' h
  have hms : findN s m = some a := markedTo_findN_back_live hmk hfm hda
  rcases markedTo_findN hmk p with ⟨-, hnone⟩ | ⟨b0, hb0, -⟩
  · rw [hnone] at hfp; cases hfp
  · rcases sdr_sound fuel s i s' hnd h p b0 hb0 with hsp | ⟨hsp, hcase⟩
    · have hbb : b = b0 := by
        rw [hsp] at hfp
        exact (Option.some.inj hfp).symm
      rcases findN_nid hms with ⟨-, hams⟩
      rcases findN_nid hb0 with ⟨hnb0, hb0s⟩
      rw [hbb]
      exact hcl a hams b0 hb0s hda (by rw [hnb0]; exact hpa)
    · exfalso
      have hlpm : liveParentOf s m = some p := by
        rw [liveParentOf_intro hms hda]
        exact hpa
      have hdesc : ∃ k, upIter s (k+1) m = some i := by
        rcases hcase with rfl | ⟨-, e, he⟩
        · exact ⟨0, by rw [upIter_one]; exact hlpm⟩
        · refine ⟨e + 1, ?_⟩
          have hcomm : e + 1 + 1 = 1 + (e + 1) := by omega
          rw [hcomm, upIter_add, upIter_one, hlpm]
          exact he
      rcases hdesc with ⟨k, hk⟩
      have hmark := sdr_complete fuel s i s' hnd hac h m a k hms hk
      rw [hfm] at hmark
      injection hmark with hmark
      rw [hmark, mark_delAt] at hda
      cases hda

/-- No live node has a soft-deleted ancestor after a successful cascade
on well-formed closed data. -/
theorem sdr_closed {now fuel : Nat} {s s' : List α} {i : Nat}
    (hnd : NodupIds s) (hac : Acyclic s) (hcl : ClosedStore s)
    (h : sdr now fuel s i = some s') :
    ∀ k m a p b, findN s' m = some a → delAt a = none →
      parIter s' (k+1) m = some p → findN s' p = some b → delAt b = none := by
  intro k
  induction k with
  | zero =>
    intro m a p b hfm hda hpi hfp
    rcases parIter_succ_elim hpi with ⟨a', p', hfa, hpp, hrest⟩
    rw [hfm] at hfa
    injection hfa with hfa
    subst hfa
    simp only [parIter] at hrest
    injection hrest with hrest
    rw [hrest] at hpp
    exact sdr_closed_step hnd hac hcl h m a p b hfm hda hpp hfp
  | succ k ih =>
    intro m a p b hfm hda hpi hfp
    rcases parIter_succ_elim hpi with ⟨a', p1, hfa, hpp, hrest⟩
    rw [hfm] at hfa
    injection hfa with hfa
    subst hfa
    rcases parIter_succ_elim hrest with ⟨b1, p2, hfb1, hpb1, -⟩
    have hb1live : delAt b1 = none :=
      sdr_closed_step hnd hac hcl h m a p1 b1 hfm hda hpp hfb1
    exact ih p1 b1 p b hfb1 hb1live hrest hfp

theorem upIter_rank {s : List α} {rk : Nat → Nat} (hrk : RankDec s rk) :
    ∀ (k j j' : Nat) (b' : α), upIter s (k+1) j = some j' →
      findN s j' = some b' → rk j' < rk j := by
  intro k
  induction k with
  | zero =>
    intro j j' b' hu hb'
    rw [upIter_one] at hu
    rcases liveParentOf_elim hu with ⟨a, ha, hda, hpa⟩
    rcases findN_nid ha with ⟨hna, hams⟩
    rcases findN_nid hb' with ⟨hnb, hbms⟩
    have := hrk a hams b' hbms hda (by rw [hnb]; exact hpa)
      (by rw [hnb]; exact hb')
    rw [hnb, hna] at this
    exact this
  | succ k ih =>
    intro j j' b' hu hb'
    have hcomm : k + 1 + 1 = 1 + (k + 1) := by omega
    rw [hcomm] at hu
    rcases upIter_split hu with ⟨p, h1, h2⟩
    rw [upIter_one] at h1
    rcases liveParentOf_elim h1 with ⟨a, ha, hda, hpa⟩
    have hbp : ∃ bp, findN s p = some bp := by
      simp only [upIter] at h2
      cases hlp : liveParentOf s p with
      | none => rw [hlp] at h2; cases h2
      | some q =>
        rcases liveParentOf_elim hlp with ⟨bp, hbp, -, -⟩
        exact ⟨bp, hbp⟩
    rcases hbp with ⟨bp, hfbp⟩
    rcases findN_nid ha with ⟨hna, hams⟩
    rcases findN_nid hfbp with ⟨hnbp, hbpms⟩
    have hstep := hrk a hams bp hbpms hda (by rw [hnbp]; exact hpa)
      (by rw [hnbp]; exact hfbp)
    rw [hnbp, hna] at hstep
    exact lt_trans (ih p j' b' h2 hb') hstep

theorem acyclic_of_rank {s : List α} {rk : Nat → Nat}
    (hrk : RankDec s rk) : Acyclic s := by
  intro i k hcy
  have h1 : ∃ a, findN s i = some a := by
    simp only [upIter] at hcy
    cases hlp : liveParentOf s i with
    | none => rw [hlp] at hcy; cases hcy
    | some p =>
      rcases liveParentOf_elim hlp with ⟨a, ha, -, -⟩
      exact ⟨a, ha⟩
  rcases h1 with ⟨a, ha⟩
  exact absurd (upIter_rank hrk k i i a hcy ha) (lt_irrefl _)

/-! ## The Deck model (`src/api/deck/models/deck.py`) and
`DeckService` (`src/api/deck/services/deck_service.py`) -/

structure Deck where
  id : Nat
  user : Nat
  name : String
  description : Option String
  colorHex : String
  parent : Option Nat
  order : Int
  isPublic : Bool
  isDeleted : Bool
  deletedAt : Option Nat
  createdAt : Nat
deriving DecidableEq

instance : SoftNode Deck where
  nid := Deck.id
  par := Deck.parent
  delAt := Deck.deletedAt
  isDel := Deck.isDeleted
  mark := fun d n => { d with isDeleted := true, deletedAt := some n }
  mark_nid := fun _ _ => rfl
  mark_par := fun _ _ => rfl
  mark_delAt := fun _ _ => rfl
  mark_isDel := fun _ _ => rfl
  mark_idem := fun _ _ => rfl

/-- `DeckService.get_deck_by_id`: fetch by id, owner and liveness
(`Deck.objects.get(id=…, user=…, deleted_at__isnull=True)`). -/
def get_deck_by_id (s : List Deck) (deckId user : Nat) : Option Deck :=
  s.find? (fun d =>
    d.id == deckId && d.user == user && d.deletedAt == (none : Option Nat))

/-- The `ValueError`s raised by `DeckService`, one constructor per
distinct message (the spec names them SelfParentError / CycleDetected /
ParentNotFound). -/
inductive DeckErr where
  | selfParent
  | circularRef
  | parentNotFound (parentId : Nat)
deriving DecidableEq

/-- Largest element of a list of order values
(`order_by("-order").first()` reads the maximal `order`). -/
def maxOrder : List Int → Option Int
  | [] => none
  | o :: os =>
    match maxOrder os with
    | none => some o
    | some m => some (max o m)

/-- The live decks of `user` under parent `parent` (by id, `none` = root). -/
def liveSiblings (s : List Deck) (user : Nat) (parent : Option Nat) : List Deck :=
  s.filter (fun d =>
    d.user == user && d.parent == parent && d.deletedAt == (none : Option Nat))

/-- `DeckService._get_next_order`: max order among live siblings plus
one, or `0` when there is no live sibling. -/
def get_next_order (s : List Deck) (user : Nat) (parent : Option Nat) : Int :=
  match maxOrder ((liveSiblings s user parent).map Deck.order) with
  | none => 0
  | some m => m + 1

/-- `DeckService.create_deck`.  `newId` and `now` stand for the fresh
uuid and the creation timestamp. -/
def create_deck (s : List Deck) (user newId now : Nat) (name : String)
    (description : Option String) (colorHex : String)
    (parentId : Option Nat) (isPublic : Bool) :
    Except DeckErr (Deck × List Deck) :=
  let build : Option Nat → Deck × List Deck := fun pid =>
    let deck : Deck :=
      { id := newId, user := user, name := name,
        description := description, colorHex := colorHex, parent := pid,
        order := get_next_order s user pid, isPublic := isPublic,
        isDeleted := false, deletedAt := none, createdAt := now }
    (deck, s ++ [deck])
  match parentId with
  | none => .ok (build none)
  | some pid =>
    match get_deck_by_id s pid user with
    | none => .error (.parentNotFound pid)
    | some p => .ok (build (some p.id))

/-- Dereference a deck's parent link (`deck.parent` object access;
soft-deleted rows are still reachable by primary key). -/
def deckStep (s : List Deck) (d : Deck) : Option Deck :=
  match d.parent with
  | none => none
  | some pid => findN s pid

/-- `DeckService._check_circular_reference`: walk up from the
prospective parent and fail when the moved deck's id is met.  Fuel
bounds the loop; `none` means the walk did not finish. -/
def check_circular (s : List Deck) (deckId : Nat) :
    Nat → Option Deck → Option (Except DeckErr Unit)
  | _, none => some (.ok ())
  | fuel, some cur =>
    if cur.id = deckId then some (.error .circularRef)
    else
      match fuel with
      | 0 => none
      | fuel+1 => check_circular s deckId fuel (deckStep s cur)

/-- The ids visited when walking up from a node state (inclusive). -/
def chainIds (s : List Deck) : Nat → Option Deck → Option (List Nat)
  | _, none => some []
  | 0, some _ => none
  | fuel+1, some cur => (chainIds s fuel (deckStep s cur)).map (cur.id :: ·)

/-- `deck.save()`: write the row back by primary key. -/
def saveDeck (s : List Deck) (d : Deck) : List Deck :=
  s.map (fun x => if x.id == d.id then d else x)

/-- `DeckService.update_deck`.  `none` field arguments mean "not sent".
Outer `none` = the circular-reference walk ran out of fuel; `.ok none`
= deck not found (the service returns `None`).  Note the source guards
the parent change with `if parent_id is not None`, and inside it the
`if parent_id` truthiness test is always true for a uuid, so a parent
is always fetched there. -/
def update_deck (s : List Deck) (fuel deckId user : Nat)
    (name : Option String) (description : Option String)
    (colorHex : Option String) (parentId : Option Nat)
    (order : Option Int) (isPublic : Option Bool) :
    Option (Except DeckErr (Option (Deck × List Deck))) :=
  match get_deck_by_id s deckId user with
  | none => some (.ok none)
  | some deck0 =>
    let deck1 : Deck :=
      { deck0 with
        name := name.getD deck0.name,
        description :=
          match description with
          | none => deck0.description
          | some v => some v,
        colorHex := colorHex.getD deck0.colorHex,
        isPublic := isPublic.getD deck0.isPublic,
        order := order.getD deck0.order }
    match parentId with
    | none => some (.ok (some (deck1, saveDeck s deck1)))
    | some pid =>
      if deckId = pid then some (.error .selfParent)
      else
        match get_deck_by_id s pid user with
        | none => some (.error (.parentNotFound pid))
        | some newParent =>
          match check_circular s deck1.id fuel (some newParent) with
          | none => none
          | some (.error e) => some (.error e)
          | some (.ok _) =>
            let deck2 : Deck :=
              { deck1 with parent := some newParent.id }
            some (.ok (some (deck2, saveDeck s deck2)))

/-- `DeckService.delete_deck`: find the live owned deck, then cascade. -/
def delete_deck (s : List Deck) (deckId user now fuel : Nat) :
    Option (Bool × List Deck) :=
  match get_deck_by_id s deckId user with
  | none => some (false, s)
  | some deck =>
    match sdr now fuel s deck.id with
    | none => none
    | some s' => some (true, s')

/-- The store actually left behind by `update_deck`: on any raised
error the enclosing `transaction.atomic` rolls back, leaving `s`. -/
def runUpdateDeck (s : List Deck) (fuel deckId user : Nat)
    (name : Option String) (description : Option String)
    (colorHex : Option String) (parentId : Option Nat)
    (order : Option Int) (isPublic : Option Bool) : List Deck :=
  match update_deck s fuel deckId user name description colorHex
      parentId order isPublic with
  | some (.ok (some (_, s'))) => s'
  | _ => s

/-- The store left behind by `create_deck` (errors roll back). -/
def runCreateDeck (s : List Deck) (user newId now : Nat) (name : String)
    (description : Option String) (colorHex : String)
    (parentId : Option Nat) (isPublic : Bool) : List Deck :=
  match create_deck s user newId now name description colorHex
      parentId isPublic with
  | .ok (_, s') => s'
  | .error _ => s

/-- `Deck.depth`: hop count from the deck to its root, walking raw
parent links. -/
def deckDepthGo (s : List Deck) : Nat → Option Deck → Nat → Option Nat
  | _, none, acc => some acc
  | 0, some _, _ => none
  | fuel+1, some cur, acc => deckDepthGo s fuel (deckStep s cur) (acc+1)

def deckDepth (s : List Deck) (d : Deck) (fuel : Nat) : Option Nat :=
  deckDepthGo s fuel (deckStep s d) 0

/-- `Deck.get_ancestors`: the ancestor list, each visited node inserted
at the front, so the result is ordered root first. -/
def deckAncestorsGo (s : List Deck) :
    Nat → Option Deck → List Deck → Option (List Deck)
  | _, none, acc => some acc
  | 0, some _, _ => none
  | fuel+1, some cur, acc => deckAncestorsGo s fuel (deckStep s cur) (cur :: acc)

def get_ancestors (s : List Deck) (d : Deck) (fuel : Nat) : Option (List Deck) :=
  deckAncestorsGo s fuel (deckStep s d) []

/-- `Deck.get_root`: walk to the node whose parent is null. -/
def get_root (s : List Deck) : Nat → Deck → Option Deck
  | 0, cur =>
    match deckStep s cur with
    | none => some cur
    | some _ => none
  | fuel+1, cur =>
    match deckStep s cur with
    | none => some cur
    | some p => get_root s fuel p

/-- `Drop.breadcrumb`: the drop's deck's ancestors followed by the deck
itself. -/
def breadcrumb (s : List Deck) (d : Deck) (fuel : Nat) : Option (List Deck) :=
  (get_ancestors s d fuel).map (fun l => l ++ [d])

/-- Iterated raw parent-object steps (the state of the while loops in
`Deck.depth` / `get_ancestors` / `get_root`). -/
def stepIter (s : List Deck) : Nat → Option Deck → Option Deck
  | 0, st => st
  | n+1, st => stepIter s n (st.bind (deckStep s))

/-- Decidable sufficient condition for termination of the raw walks:
a rank that strictly drops along raw parent links. -/
def RawRankDec (s : List Deck) (rk : Nat → Nat) : Prop :=
  ∀ a ∈ s, ∀ b ∈ s, a.parent = some b.id → findN s b.id = some b →
    rk b.id < rk a.id

instance (s : List Deck) (rk : Nat → Nat) : Decidable (RawRankDec s rk) := by
  unfold RawRankDec; infer_instance

/-! ## Recursive tree projection
(`DeckTreeSerializer.get_children` / `CommentTreeSerializer.get_replies`:
fetch live children, order them, recurse). -/

inductive NTree (β : Type) where
  | node : β → List (NTree β) → NTree β

def rootOf {β : Type} : NTree β → β
  | .node d _ => d

/-- The recursive serializer: children produced by `kids`, each
serialized recursively.  Fuel bounds the recursion depth. -/
def treeF {β : Type} (kids : β → List β) : Nat → β → Option (NTree β)
  | 0, _ => none
  | fuel+1, d =>
    ((kids d).mapM (fun c => treeF kids fuel c)).map (fun ts => NTree.node d ts)

inductive InTree {β : Type} (x : β) : NTree β → Prop
  | here (ts : List (NTree β)) : InTree x (.node x ts)
  | there (d : β) (ts : List (NTree β)) (t : NTree β) :
      t ∈ ts → InTree x t → InTree x (.node d ts)

inductive TreeOrderedBy {β : Type} (r : β → β → Prop) : NTree β → Prop
  | node (d : β) (ts : List (NTree β)) :
      List.Pairwise (fun t1 t2 => r (rootOf t1) (rootOf t2)) ts →
      (∀ t ∈ ts, TreeOrderedBy r t) → TreeOrderedBy r (.node d ts)

theorem mapM_option_forall2 {β γ : Type} (f : β → Option γ) :
    ∀ (l : List β) (ts : List γ), l.mapM f = some ts →
      List.Forall₂ (fun c t => f c = some t) l ts := by
  intro l
  induction l with
  | nil =>
    intro ts h
    simp only [List.mapM_nil, pure] at h
    injection h with h
    subst h
    exact List.Forall₂.nil
  | cons c cs ih =>
    intro ts h
    rw [List.mapM_cons] at h
    cases hfc : f c with
    | none => rw [hfc] at h; simp at h
    | some t =>
      rw [hfc] at h
      cases hcs : cs.mapM f with
      | none => rw [hcs] at h; simp at h
      | some ts' =>
        rw [hcs] at h
        simp only [Option.bind_some, Option.bind_eq_bind, pure] at h
        have h2 : t :: ts' = ts := by
          simpa using h
        subst h2
        exact List.Forall₂.cons hfc (ih ts' hcs)

theorem forall2_mem_right {β γ : Type} {P : β → γ → Prop} :
    ∀ {l : List β} {ts : List γ}, List.Forall₂ P l ts →
      ∀ t ∈ ts, ∃ c ∈ l, P c t := by
  intro l ts h
  induction h with
  | nil => intro t ht; cases ht
  | cons hct hcs ih =>
    intro t ht
    rcases List.mem_cons.mp ht with rfl | ht
    · exact ⟨_, List.mem_cons_self _ _, hct⟩
    · rcases ih t ht with ⟨c, hc, hp⟩
      exact ⟨c, List.mem_cons_of_mem _ hc, hp⟩

theorem pairwise_of_forall2 {β γ : Type} {P : β → γ → Prop}
    {r : β → β → Prop} {r' : γ → γ → Prop}
    (hcompat : ∀ c t c' t', P c t → P c' t' → r c c' → r' t t') :
    ∀ {l : List β} {ts : List γ}, List.Forall₂ P l ts →
      List.Pairwise r l → List.Pairwise r' ts := by
  intro l ts hf
  induction hf with
  | nil => intro; exact List.Pairwise.nil
  | @cons c t l' ts' hct hf ih =>
    intro hp
    rcases List.pairwise_cons.mp hp with ⟨hhead, htail⟩
    refine List.Pairwise.cons ?_ (ih htail)
    intro t' ht'
    rcases forall2_mem_right hf t' ht' with ⟨c', hc', hp'⟩
    exact hcompat c t c' t' hct hp' (hhead c' hc')

theorem treeF_rootOf {β : Type} {kids : β → List β} {fuel : Nat} {d : β}
    {t : NTree β} (h : treeF kids fuel d = some t) : rootOf t = d := by
  cases fuel with
  | zero => cases h
  | succ fuel =>
    simp only [treeF] at h
    cases hm : (kids d).mapM (fun c => treeF kids fuel c) with
    | none => rw [hm] at h; cases h
    | some ts =>
      rw [hm] at h
      injection h with h
      subst h
      rfl

theorem treeF_succ_elim {β : Type} {kids : β → List β} {fuel : Nat} {d : β}
    {t : NTree β} (h : treeF kids (fuel+1) d = some t) :
    ∃ ts, t = NTree.node d ts ∧
      List.Forall₂ (fun c t' => treeF kids fuel c = some t') (kids d) ts := by
  simp only [treeF] at h
  cases hm : (kids d).mapM (fun c => treeF kids fuel c) with
  | none => rw [hm] at h; cases h
  | some ts =>
    rw [hm] at h
    injection h with h
    subst h
    exact ⟨ts, rfl, mapM_option_forall2 _ _ ts hm⟩

/-- Everything in a serialized tree is either the node it was invoked
on or a node produced by the child query. -/
theorem treeF_mem {β : Type} {kids : β → List β} {Q : β → Prop}
    (hk : ∀ d x, x ∈ kids d → Q x) :
    ∀ (fuel : Nat) (d : β) (t : NTree β), treeF kids fuel d = some t →
      ∀ x, InTree x t → x = d ∨ Q x := by
  intro fuel
  induction fuel with
  | zero => intro d t h; cases h
  | succ fuel ih =>
    intro d t h x hx
    rcases treeF_succ_elim h with ⟨ts, rfl, hf⟩
    cases hx with
    | here _ => exact Or.inl rfl
    | there _ _ t' ht' hx' =>
      rcases forall2_mem_right hf t' ht' with ⟨c, hc, hft⟩
      rcases ih c t' hft x hx' with rfl | hq
      · exact Or.inr (hk d x hc)
      · exact Or.inr hq

/-- If the child query always returns its list in `r`-order, every
level of the serialized tree is in `r`-order. -/
theorem treeF_ordered {β : Type} {kids : β → List β} {r : β → β → Prop}
    (hk : ∀ d, List.Pairwise r (kids d)) :
    ∀ (fuel : Nat) (d : β) (t : NTree β), treeF kids fuel d = some t →
      TreeOrderedBy r t := by
  intro fuel
  induction fuel with
  | zero => intro d t h; cases h
  | succ fuel ih =>
    intro d t h
    rcases treeF_succ_elim h with ⟨ts, rfl, hf⟩
    refine TreeOrderedBy.node d ts ?_ ?_
    · refine pairwise_of_forall2 ?_ hf (hk d)
      intro c t1 c' t2 h1 h2 hr
      rw [treeF_rootOf h1, treeF_rootOf h2]
      exact hr
    · intro t' ht'
      rcases forall2_mem_right hf t' ht' with ⟨c, -, hft⟩
      exact ih c t' hft

/-! ## Deck tree projection (`DeckTreeSerializer`) -/

def deckOrderLe (a b : Deck) : Prop := a.order ≤ b.order

instance : DecidableRel deckOrderLe := fun a b =>
  inferInstanceAs (Decidable (a.order ≤ b.order))

instance : IsTotal Deck deckOrderLe := ⟨fun a b => le_total a.order b.order⟩

instance : IsTrans Deck deckOrderLe :=
  ⟨fun _ _ _ h1 h2 => le_trans h1 h2⟩

/-- `DeckTreeSerializer.get_children`:
`obj.children.filter(is_deleted=False).order_by("order")`. -/
def deckChildren (s : List Deck) (d : Deck) : List Deck :=
  List.insertionSort deckOrderLe
    (s.filter (fun x => x.parent == some d.id && x.isDeleted == false))

def deckTreeF (s : List Deck) : Nat → Deck → Option (NTree Deck) :=
  treeF (deckChildren s)

/-! ## The Comment and Drop models (`src/api/drop/models/…`) and
`CommentService` (`src/api/drop/services/comment_service.py`) -/

structure Comment where
  id : Nat
  drop : Nat
  user : Nat
  parent : Option Nat
  content : Option String
  isDeleted : Bool
  deletedAt : Option Nat
  createdAt : Nat
deriving DecidableEq

instance : SoftNode Comment where
  nid := Comment.id
  par := Comment.parent
  delAt := Comment.deletedAt
  isDel := Comment.isDeleted
  mark := fun c n => { c with isDeleted := true, deletedAt := some n }
  mark_nid := fun _ _ => rfl
  mark_par := fun _ _ => rfl
  mark_delAt := fun _ _ => rfl
  mark_isDel := fun _ _ => rfl
  mark_idem := fun _ _ => rfl

/-- The fields of a Drop row the comment service reads. -/
structure DropRec where
  id : Nat
  user : Nat
  deck : Nat
  deletedAt : Option Nat
deriving DecidableEq

/-- The errors raised by `CommentService`, one constructor per distinct
raise site (`ValueError`s and the `PermissionError`). -/
inductive CommentErr where
  | dropNotFound (dropId : Nat)
  | parentNotFound (parentId : Nat)
  | parentWrongDrop
  | permissionDenied
deriving DecidableEq

/-- `CommentService.get_comment_by_id`: by id and liveness only — no
drop or user filter. -/
def get_comment_by_id (s : List Comment) (commentId : Nat) : Option Comment :=
  s.find? (fun c => c.id == commentId && c.deletedAt == (none : Option Nat))

/-- `CommentService.create_comment`: the drop must exist and be live;
a named parent comment must exist, be live, and belong to the same
drop. -/
def create_comment (drops : List DropRec) (s : List Comment)
    (user dropId : Nat) (content : String) (parentId : Option Nat)
    (newId now : Nat) : Except CommentErr (Comment × List Comment) :=
  let build : Option Nat → Comment × List Comment := fun pid =>
    let comment : Comment :=
      { id := newId, drop := dropId, user := user, parent := pid,
        content := some content, isDeleted := false, deletedAt := none,
        createdAt := now }
    (comment, s ++ [comment])
  match drops.find? (fun d =>
      d.id == dropId && d.deletedAt == (none : Option Nat)) with
  | none => .error (.dropNotFound dropId)
  | some _ =>
    match parentId with
    | none => .ok (build none)
    | some pid =>
      match get_comment_by_id s pid with
      | none => .error (.parentNotFound pid)
      | some parent =>
        if parent.drop ≠ dropId then .error .parentWrongDrop
        else .ok (build (some parent.id))

def saveComment (s : List Comment) (c : Comment) : List Comment :=
  s.map (fun x => if x.id == c.id then c else x)

/-- `CommentService.update_comment`: author-only edit; `.ok none`
models the service returning `None` when the comment is missing. -/
def update_comment (s : List Comment) (commentId user : Nat)
    (content : String) : Except CommentErr (Option (Comment × List Comment)) :=
  match get_comment_by_id s commentId with
  | none => .ok none
  | some c =>
    if c.user ≠ user then .error .permissionDenied
    else
      let c2 : Comment := { c with content := some content }
      .ok (some (c2, saveComment s c2))

/-- `CommentService.delete_comment`: author-only cascading soft delete.
Outer `none` = the cascade ran out of fuel. -/
def delete_comment (s : List Comment) (commentId user now fuel : Nat) :
    Option (Except CommentErr (Bool × List Comment)) :=
  match get_comment_by_id s commentId with
  | none => some (.ok (false, s))
  | some c =>
    if c.user ≠ user then some (.error .permissionDenied)
    else
      match sdr now fuel s c.id with
      | none => none
      | some s' => some (.ok (true, s'))

def runUpdateComment (s : List Comment) (commentId user : Nat)
    (content : String) : List Comment :=
  match update_comment s commentId user content with
  | .ok (some (_, s')) => s'
  | _ => s

def runDeleteComment (s : List Comment) (commentId user now fuel : Nat) :
    List Comment :=
  match delete_comment s commentId user now fuel with
  | some (.ok (true, s')) => s'
  | _ => s

def runCreateComment (drops : List DropRec) (s : List Comment)
    (user dropId : Nat) (content : String) (parentId : Option Nat)
    (newId now : Nat) : List Comment :=
  match create_comment drops s user dropId content parentId newId now with
  | .ok (_, s') => s'
  | .error _ => s

/-! ## Comment tree projection (`CommentTreeSerializer`) -/

def commentCreatedLe (a b : Comment) : Prop := a.createdAt ≤ b.createdAt

instance : DecidableRel commentCreatedLe := fun a b =>
  inferInstanceAs (Decidable (a.createdAt ≤ b.createdAt))

instance : IsTotal Comment commentCreatedLe :=
  ⟨fun a b => Nat.le_total a.createdAt b.createdAt⟩

instance : IsTrans Comment commentCreatedLe :=
  ⟨fun _ _ _ h1 h2 => Nat.le_trans h1 h2⟩

/-- `CommentTreeSerializer.get_replies`:
`obj.replies.filter(is_deleted=False).order_by("created_at")`. -/
def commentReplies (s : List Comment) (c : Comment) : List Comment :=
  List.insertionSort commentCreatedLe
    (s.filter (fun x => x.parent == some c.id && x.isDeleted == false))

def commentTreeF (s : List Comment) : Nat → Comment → Option (NTree Comment) :=
  treeF (commentReplies s)

/-! ## Facts about the deck service operations -/

theorem get_deck_by_id_elim {s : List Deck} {deckId user : Nat} {d : Deck}
    (h : get_deck_by_id s deckId user = some d) :
    d ∈ s ∧ d.id = deckId ∧ d.user = user ∧ d.deletedAt = none := by
  have h1 := List.find?_some h
  have h2 := List.mem_of_find?_eq_some h
  simp only [Bool.and_eq_true, beq_iff_eq] at h1
  exact ⟨h2, h1.1.1, h1.1.2, h1.2⟩

theorem mem_id_unique {s : List α} {a b : α} (hnd : NodupIds s)
    (ha : a ∈ s) (hb : b ∈ s) (h : nid a = nid b) : a = b := by
  have h1 := findN_of_mem_nodup hnd ha
  have h2 := findN_of_mem_nodup hnd hb
  rw [h, h2] at h1
  exact (Option.some.inj h1).symm

/-- A deck of another user is invisible to `get_deck_by_id`. -/
theorem get_deck_by_id_other_user {s : List Deck} {pid u : Nat} {dp : Deck}
    (hnd : NodupIds s) (hf : findN s pid = some dp) (hu : dp.user ≠ u) :
    get_deck_by_id s pid u = none := by
  cases hq : get_deck_by_id s pid u with
  | none => rfl
  | some q =>
    rcases get_deck_by_id_elim hq with ⟨hqs, hqid, hqu, -⟩
    rcases findN_nid hf with ⟨hdpid, hdps⟩
    have : q = dp := mem_id_unique hnd hqs hdps (by
      show q.id = dp.id
      rw [hqid]
      exact hdpid.symm)
    rw [this] at hqu
    exact absurd hqu hu

theorem check_circular_of_chain {s : List Deck} {x : Nat} :
    ∀ (fuel : Nat) (st : Option Deck) (l : List Nat),
      chainIds s fuel st = some l →
      check_circular s x fuel st =
        some (if x ∈ l then Except.error DeckErr.circularRef
          else Except.ok ()) := by
  intro fuel
  induction fuel with
  | zero =>
    intro st l h
    cases st with
    | none =>
      injection h with h
      subst h
      rw [if_neg (by simp : ¬ x ∈ ([] : List Nat))]
      rfl
    | some cur => cases h
  | succ fuel ih =>
    intro st l h
    cases st with
    | none =>
      injection h with h
      subst h
      rw [if_neg (by simp : ¬ x ∈ ([] : List Nat))]
      rfl
    | some cur =>
      simp only [chainIds] at h
      cases hc : chainIds s fuel (deckStep s cur) with
      | none => rw [hc] at h; cases h
      | some l' =>
        rw [hc] at h
        have h2 : cur.id :: l' = l := Option.some.inj h
        subst h2
        simp only [check_circular]
        by_cases hx : cur.id = x
        · rw [if_pos hx]
          have : x ∈ cur.id :: l' := by
            rw [hx]
            exact List.mem_cons_self _ _
          rw [if_pos this]
        · rw [if_neg hx]
          rw [ih (deckStep s cur) l' hc]
          by_cases hm : x ∈ l'
          · rw [if_pos hm, if_pos (List.mem_cons_of_mem _ hm)]
          · rw [if_neg hm, if_neg (by
              intro hcon
              rcases List.mem_cons.mp hcon with h1 | h1
              · exact hx h1.symm
              · exact hm h1)]

theorem maxOrder_le {l : List Int} {x : Int} (hx : x ∈ l) :
    ∃ m, maxOrder l = some m ∧ x ≤ m := by
  induction l with
  | nil => cases hx
  | cons o os ih =>
    rcases List.mem_cons.mp hx with rfl | hx
    · cases hos : maxOrder os with
      | none => exact ⟨x, by simp [maxOrder, hos], le_refl x⟩
      | some m => exact ⟨max x m, by simp [maxOrder, hos], le_max_left x m⟩
    · rcases ih hx with ⟨m, hm, hle⟩
      refine ⟨max o m, ?_, le_trans hle (le_max_right o m)⟩
      simp [maxOrder, hm]

theorem maxOrder_mem : ∀ {l : List Int} {m : Int}, maxOrder l = some m → m ∈ l := by
  intro l
  induction l with
  | nil => intro m h; cases h
  | cons o os ih =>
    intro m h
    simp only [maxOrder] at h
    cases hos : maxOrder os with
    | none =>
      rw [hos] at h
      injection h with h
      subst h
      exact List.mem_cons_self _ _
    | some m' =>
      rw [hos] at h
      injection h with h
      subst h
      rcases max_cases o m' with ⟨heq, -⟩ | ⟨heq, -⟩
      · rw [heq]; exact List.mem_cons_self _ _
      · rw [heq]; exact List.mem_cons_of_mem _ (ih hos)

theorem mem_liveSiblings {s : List Deck} {user : Nat} {parent : Option Nat}
    {d : Deck} (hds : d ∈ s) (hu : d.user = user) (hp : d.parent = parent)
    (hl : d.deletedAt = none) : d ∈ liveSiblings s user parent := by
  unfold liveSiblings
  refine List.mem_filter.mpr ⟨hds, ?_⟩
  simp [hu, hp, hl]

theorem get_next_order_gt {s : List Deck} {user : Nat} {parent : Option Nat}
    {d : Deck} (hd : d ∈ liveSiblings s user parent) :
    d.order < get_next_order s user parent := by
  have hx : d.order ∈ (liveSiblings s user parent).map Deck.order :=
    List.mem_map_of_mem _ hd
  rcases maxOrder_le hx with ⟨m, hm, hle⟩
  unfold get_next_order
  rw [hm]
  show d.order < m + 1
  omega

theorem get_next_order_empty {s : List Deck} {user : Nat}
    {parent : Option Nat} (h : liveSiblings s user parent = []) :
    get_next_order s user parent = 0 := by
  unfold get_next_order
  rw [h]
  rfl

theorem get_next_order_max {s : List Deck} {user : Nat} {parent : Option Nat}
    (h : liveSiblings s user parent ≠ []) :
    ∃ d ∈ liveSiblings s user parent,
      get_next_order s user parent = d.order + 1 ∧
      ∀ x ∈ liveSiblings s user parent, x.order ≤ d.order := by
  rcases List.exists_mem_of_ne_nil _ h with ⟨a, ha⟩
  cases hm : maxOrder ((liveSiblings s user parent).map Deck.order) with
  | none =>
    exfalso
    rcases maxOrder_le (List.mem_map_of_mem Deck.order ha) with ⟨m, hm2, -⟩
    rw [hm] at hm2
    cases hm2
  | some m =>
    rcases List.mem_map.mp (maxOrder_mem hm) with ⟨d, hd, hdo⟩
    refine ⟨d, hd, ?_, ?_⟩
    · unfold get_next_order
      rw [hm]
      show m + 1 = d.order + 1
      rw [hdo]
    · intro x hx
      rcases maxOrder_le (List.mem_map_of_mem Deck.order hx) with ⟨m2, hm2, hle⟩
      rw [hm] at hm2
      injection hm2 with hm2
      subst hm2
      rw [hdo]
      exact hle

theorem create_deck_ok_elim {s s' : List Deck} {user newId now : Nat}
    {name : String} {description : Option String} {colorHex : String}
    {parentId : Option Nat} {isPublic : Bool} {d : Deck}
    (h : create_deck s user newId now name description colorHex
      parentId isPublic = .ok (d, s')) :
    s' = s ++ [d] ∧ d.id = newId ∧ d.user = user ∧ d.deletedAt = none ∧
      d.createdAt = now ∧ d.order = get_next_order s user d.parent ∧
      (parentId = none → d.parent = none) ∧
      (∀ pid, parentId = some pid → d.parent = some pid) := by
  cases hp : parentId with
  | none =>
    rw [hp] at h
    simp only [create_deck] at h
    injection h with h
    rw [Prod.mk.injEq] at h
    obtain ⟨h1, h2⟩ := h
    subst h1
    subst h2
    exact ⟨rfl, rfl, rfl, rfl, rfl, rfl, fun _ => rfl,
      fun pid hp2 => Option.noConfusion hp2⟩
  | some pid =>
    rw [hp] at h
    simp only [create_deck] at h
    cases hg : get_deck_by_id s pid user with
    | none => rw [hg] at h; cases h
    | some p =>
      rw [hg] at h
      injection h with h
      rw [Prod.mk.injEq] at h
      obtain ⟨h1, h2⟩ := h
      subst h1
      subst h2
      rcases get_deck_by_id_elim hg with ⟨-, hpid, -, -⟩
      refine ⟨rfl, rfl, rfl, rfl, rfl, rfl, fun hc => Option.noConfusion hc, ?_⟩
      intro pid2 hp2
      injection hp2 with hp2
      subst hp2
      show some p.id = some pid
      rw [hpid]

/-! ## Scope closure (deck hierarchies never cross users) -/

/-- Every stored parent link stays within one user's partition. -/
def ScopeClosed (s : List Deck) : Prop :=
  ∀ a ∈ s, ∀ b ∈ s, a.parent = some b.id → b.user = a.user

instance (s : List Deck) : Decidable (ScopeClosed s) := by
  unfold ScopeClosed; infer_instance

theorem deckStep_scope {s : List Deck} (hsc : ScopeClosed s) {cur p : Deck}
    (hcur : cur ∈ s) (hp : deckStep s cur = some p) :
    p ∈ s ∧ p.user = cur.user := by
  unfold deckStep at hp
  cases hpar : cur.parent with
  | none => rw [hpar] at hp; cases hp
  | some pid =>
    rw [hpar] at hp
    rcases findN_nid hp with ⟨hpid, hps⟩
    refine ⟨hps, hsc cur hcur p hps ?_⟩
    rw [hpar]
    exact congrArg some hpid.symm

theorem deckAncestorsGo_scope {s : List Deck} (hsc : ScopeClosed s) (u : Nat) :
    ∀ (fuel : Nat) (st : Option Deck) (acc l : List Deck),
      (∀ x, st = some x → x ∈ s ∧ x.user = u) →
      (∀ x ∈ acc, x.user = u) →
      deckAncestorsGo s fuel st acc = some l → ∀ x ∈ l, x.user = u := by
  intro fuel
  induction fuel with
  | zero =>
    intro st acc l hst hacc h
    cases st with
    | none =>
      injection h with h
      subst h
      exact hacc
    | some cur => cases h
  | succ fuel ih =>
    intro st acc l hst hacc h
    cases st with
    | none =>
      injection h with h
      subst h
      exact hacc
    | some cur =>
      rcases hst cur rfl with ⟨hcs, hcu⟩
      refine ih (deckStep s cur) (cur :: acc) l ?_ ?_ h
      · intro x hx
        rcases deckStep_scope hsc hcs hx with ⟨hxs, hxu⟩
        exact ⟨hxs, by rw [hxu, hcu]⟩
      · intro x hx
        rcases List.mem_cons.mp hx with rfl | hx
        · exact hcu
        · exact hacc x hx

/-- `get_ancestors` stays inside the deck's own scope. -/
theorem get_ancestors_scope {s : List Deck} (hsc : ScopeClosed s) {d : Deck}
    (hd : d ∈ s) {fuel : Nat} {l : List Deck}
    (h : get_ancestors s d fuel = some l) : ∀ x ∈ l, x.user = d.user := by
  refine deckAncestorsGo_scope hsc d.user fuel (deckStep s d) [] l ?_ ?_ h
  · intro x hx
    exact deckStep_scope hsc hd hx
  · intro x hx
    cases hx

theorem deckChildren_mem {s : List Deck} {d x : Deck}
    (hx : x ∈ deckChildren s d) :
    x ∈ s ∧ x.parent = some d.id ∧ x.isDeleted = false := by
  unfold deckChildren at hx
  have hperm := List.perm_insertionSort deckOrderLe
    (s.filter (fun y => y.parent == some d.id && y.isDeleted == false))
  have hx2 := hperm.mem_iff.mp hx
  rcases List.mem_filter.mp hx2 with ⟨hxs, hp⟩
  simp only [Bool.and_eq_true, beq_iff_eq] at hp
  exact ⟨hxs, hp.1, hp.2⟩

/-- The recursive deck tree never leaves the root's scope. -/
theorem deckTreeF_scope {s : List Deck} (hsc : ScopeClosed s) :
    ∀ (fuel : Nat) (d : Deck) (t : NTree Deck), d ∈ s →
      deckTreeF s fuel d = some t →
      ∀ x, InTree x t → x.user = d.user ∧ x ∈ s := by
  intro fuel
  induction fuel with
  | zero => intro d t _ h; cases h
  | succ fuel ih =>
    intro d t hd h x hx
    rcases treeF_succ_elim h with ⟨ts, rfl, hf⟩
    cases hx with
    | here _ => exact ⟨rfl, hd⟩
    | there _ _ t' ht' hx' =>
      rcases forall2_mem_right hf t' ht' with ⟨c, hc, hft⟩
      rcases deckChildren_mem hc with ⟨hcs, hcp, -⟩
      have hcu : c.user = d.user := (hsc c hcs d hd hcp).symm
      rcases ih c t' hcs hft x hx' with ⟨hxu, hxs⟩
      exact ⟨by rw [hxu, hcu], hxs⟩

/-! ## Termination and divergence of the raw ancestry walks (`Deck.depth`,
`Deck.get_ancestors`, `Deck.get_root`) -/

theorem stepIter_none (s : List Deck) : ∀ n, stepIter s n none = none := by
  intro n
  induction n with
  | zero => rfl
  | succ n ih => exact ih

theorem stepIter_add (s : List Deck) :
    ∀ (a b : Nat) (st : Option Deck),
      stepIter s (a + b) st = stepIter s b (stepIter s a st) := by
  intro a
  induction a with
  | zero =>
    intro b st
    rw [Nat.zero_add]
    rfl
  | succ a ih =>
    intro b st
    have : a + 1 + b = (a + b) + 1 := by omega
    rw [this]
    show stepIter s (a + b) (st.bind (deckStep s)) =
      stepIter s b (stepIter s (a + 1) st)
    rw [ih b (st.bind (deckStep s))]
    rfl

theorem stepIter_pump {s : List Deck} {k : Nat} {st : Option Deck}
    (h : stepIter s k st = st) : ∀ q, stepIter s (q * k) st = st := by
  intro q
  induction q with
  | zero => rw [Nat.zero_mul]; rfl
  | succ q ih =>
    have : (q + 1) * k = q * k + k := by ring
    rw [this, stepIter_add, ih, h]

theorem stepIter_ne_none {s : List Deck} {k : Nat} {d : Deck}
    (hk : 0 < k) (h : stepIter s k (some d) = some d) :
    ∀ m, stepIter s m (some d) ≠ none := by
  intro m hm
  cases m with
  | zero => cases hm
  | succ m0 =>
    have h1 : stepIter s ((m0 + 1) * k) (some d) = some d := stepIter_pump h _
    have h2 : (m0 + 1) * k = (m0 + 1) + ((m0 + 1) * k - (m0 + 1)) := by
      have : m0 + 1 ≤ (m0 + 1) * k := Nat.le_mul_of_pos_right _ hk
      omega
    rw [h2, stepIter_add, hm, stepIter_none] at h1
    cases h1

theorem deckDepthGo_none {s : List Deck} :
    ∀ (fuel : Nat) (st : Option Deck) (acc : Nat),
      (∀ m, stepIter s m st ≠ none) →
      deckDepthGo s fuel st acc = none := by
  intro fuel
  induction fuel with
  | zero =>
    intro st acc hst
    cases st with
    | none => exact absurd rfl (hst 0)
    | some cur => rfl
  | succ fuel ih =>
    intro st acc hst
    cases st with
    | none => exact absurd rfl (hst 0)
    | some cur =>
      show deckDepthGo s fuel (deckStep s cur) (acc + 1) = none
      refine ih (deckStep s cur) (acc + 1) ?_
      intro m
      have : stepIter s m (deckStep s cur) = stepIter s (m + 1) (some cur) := by
        have hc : m + 1 = 1 + m := by omega
        rw [hc, stepIter_add]
        rfl
      rw [this]
      exact hst (m + 1)

theorem deckAncestorsGo_none {s : List Deck} :
    ∀ (fuel : Nat) (st : Option Deck) (acc : List Deck),
      (∀ m, stepIter s m st ≠ none) →
      deckAncestorsGo s fuel st acc = none := by
  intro fuel
  induction fuel with
  | zero =>
    intro st acc hst
    cases st with
    | none => exact absurd rfl (hst 0)
    | some cur => rfl
  | succ fuel ih =>
    intro st acc hst
    cases st with
    | none => exact absurd rfl (hst 0)
    | some cur =>
      show deckAncestorsGo s fuel (deckStep s cur) (cur :: acc) = none
      refine ih (deckStep s cur) (cur :: acc) ?_
      intro m
      have : stepIter s m (deckStep s cur) = stepIter s (m + 1) (some cur) := by
        have hc : m + 1 = 1 + m := by omega
        rw [hc, stepIter_add]
        rfl
      rw [this]
      exact hst (m + 1)

theorem get_root_none {s : List Deck} :
    ∀ (fuel : Nat) (cur : Deck),
      (∀ m, stepIter s m (some cur) ≠ none) →
      get_root s fuel cur = none := by
  intro fuel
  induction fuel with
  | zero =>
    intro cur hst
    have h1 : stepIter s 1 (some cur) ≠ none := hst 1
    show (match deckStep s cur with
      | none => some cur
      | some _ => none) = none
    cases hd : deckStep s cur with
    | none =>
      exfalso
      apply h1
      show stepIter s 0 ((some cur).bind (deckStep s)) = none
      show ((some cur).bind (deckStep s)) = none
      show deckStep s cur = none
      exact hd
    | some p => rfl
  | succ fuel ih =>
    intro cur hst
    have h1 : stepIter s 1 (some cur) ≠ none := hst 1
    show (match deckStep s cur with
      | none => some cur
      | some p => get_root s fuel p) = none
    cases hd : deckStep s cur with
    | none =>
      exfalso
      apply h1
      show deckStep s cur = none
      exact hd
    | some p =>
      refine ih p ?_
      intro m
      have : stepIter s m (some p) = stepIter s (m + 1) (some cur) := by
        have hc : m + 1 = 1 + m := by omega
        rw [hc, stepIter_add]
        show stepIter s m (some p) = stepIter s m ((some cur).bind (deckStep s))
        show stepIter s m (some p) = stepIter s m (deckStep s cur)
        rw [hd]
      rw [this]
      exact hst (m + 1)

theorem deckStep_rank {s : List Deck} {rk : Nat → Nat} (hrk : RawRankDec s rk)
    {cur p : Deck} (hcur : cur ∈ s) (hp : deckStep s cur = some p) :
    p ∈ s ∧ rk p.id < rk cur.id := by
  unfold deckStep at hp
  cases hpar : cur.parent with
  | none => rw [hpar] at hp; cases hp
  | some pid =>
    rw [hpar] at hp
    rcases findN_nid hp with ⟨hpid, hps⟩
    refine ⟨hps, hrk cur hcur p hps ?_ ?_⟩
    · rw [hpar]
      exact congrArg some hpid.symm
    · rw [← hpid] at hp
      exact hp

theorem deckDepthGo_terminates {s : List Deck} {rk : Nat → Nat}
    (hrk : RawRankDec s rk) :
    ∀ (fuel : Nat) (cur : Deck) (acc : Nat), cur ∈ s → rk cur.id ≤ fuel →
      (deckDepthGo s fuel (deckStep s cur) acc).isSome := by
  intro fuel
  induction fuel with
  | zero =>
    intro cur acc hcur hfu
    cases hd : deckStep s cur with
    | none => rfl
    | some p =>
      rcases deckStep_rank hrk hcur hd with ⟨-, hlt⟩
      omega
  | succ fuel ih =>
    intro cur acc hcur hfu
    cases hd : deckStep s cur with
    | none => rfl
    | some p =>
      rcases deckStep_rank hrk hcur hd with ⟨hps, hlt⟩
      show (deckDepthGo s fuel (deckStep s p) (acc + 1)).isSome
      exact ih p (acc + 1) hps (by omega)

theorem deckAncestorsGo_terminates {s : List Deck} {rk : Nat → Nat}
    (hrk : RawRankDec s rk) :
    ∀ (fuel : Nat) (cur : Deck) (acc : List Deck), cur ∈ s → rk cur.id ≤ fuel →
      (deckAncestorsGo s fuel (deckStep s cur) acc).isSome := by
  intro fuel
  induction fuel with
  | zero =>
    intro cur acc hcur hfu
    cases hd : deckStep s cur with
    | none => rfl
    | some p =>
      rcases deckStep_rank hrk hcur hd with ⟨-, hlt⟩
      omega
  | succ fuel ih =>
    intro cur acc hcur hfu
    cases hd : deckStep s cur with
    | none => rfl
    | some p =>
      rcases deckStep_rank hrk hcur hd with ⟨hps, hlt⟩
      show (deckAncestorsGo s fuel (deckStep s p) (p :: acc)).isSome
      exact ih p (p :: acc) hps (by omega)

theorem get_root_terminates {s : List Deck} {rk : Nat → Nat}
    (hrk : RawRankDec s rk) :
    ∀ (fuel : Nat) (cur : Deck), cur ∈ s → rk cur.id ≤ fuel →
      (get_root s fuel cur).isSome := by
  intro fuel
  induction fuel with
  | zero =>
    intro cur hcur hfu
    show (match deckStep s cur with
      | none => some cur
      | some _ => none).isSome
    cases hd : deckStep s cur with
    | none => rfl
    | some p =>
      rcases deckStep_rank hrk hcur hd with ⟨-, hlt⟩
      omega
  | succ fuel ih =>
    intro cur hcur hfu
    show (match deckStep s cur with
      | none => some cur
      | some p => get_root s fuel p).isSome
    cases hd : deckStep s cur with
    | none => rfl
    | some p =>
      rcases deckStep_rank hrk hcur hd with ⟨hps, hlt⟩
      exact ih p hps (by omega)

theorem delete_deck_true_elim {s s' : List Deck} {deckId user now fuel : Nat}
    (h : delete_deck s deckId user now fuel = some (true, s')) :
    ∃ d, get_deck_by_id s deckId user = some d ∧ d.id = deckId ∧
      d ∈ s ∧ d.deletedAt = none ∧ sdr now fuel s d.id = some s' := by
  unfold delete_deck at h
  cases hg : get_deck_by_id s deckId user with
  | none =>
    rw [hg] at h
    injection h with h
    rw [Prod.mk.injEq] at h
    exact absurd h.1 (by simp)
  | some d =>
    rw [hg] at h
    have h0 : (match sdr now fuel s d.id with
      | none => none
      | some s2 => some (true, s2)) = some (true, s') := h
    cases hs : sdr now fuel s d.id with
    | none => rw [hs] at h0; cases h0
    | some s2 =>
      rw [hs] at h0
      injection h0 with h0
      rw [Prod.mk.injEq] at h0
      obtain ⟨-, h2⟩ := h0
      subst h2
      rcases get_deck_by_id_elim hg with ⟨hds, hid, -, hdel⟩
      exact ⟨d, rfl, hid, hds, hdel, hs⟩

theorem get_comment_by_id_elim {s : List Comment} {commentId : Nat}
    {c : Comment} (h : get_comment_by_id s commentId = some c) :
    c ∈ s ∧ c.id = commentId ∧ c.deletedAt = none := by
  have h1 := List.find?_some h
  have h2 := List.mem_of_find?_eq_some h
  simp only [Bool.and_eq_true, beq_iff_eq] at h1
  exact ⟨h2, h1.1, h1.2⟩

theorem delete_comment_true_elim {s s' : List Comment}
    {commentId user now fuel : Nat}
    (h : delete_comment s commentId user now fuel = some (.ok (true, s'))) :
    ∃ c, get_comment_by_id s commentId = some c ∧ c.id = commentId ∧
      c ∈ s ∧ c.deletedAt = none ∧ c.user = user ∧
      sdr now fuel s c.id = some s' := by
  unfold delete_comment at h
  cases hg : get_comment_by_id s commentId with
  | none =>
    rw [hg] at h
    injection h with h
    injection h with h
    rw [Prod.mk.injEq] at h
    exact absurd h.1 (by simp)
  | some c =>
    rw [hg] at h
    have h0 : (if c.user ≠ user then some (Except.error CommentErr.permissionDenied)
      else match sdr now fuel s c.id with
        | none => none
        | some s2 => some (Except.ok (true, s2))) =
        some (Except.ok (true, s')) := h
    by_cases hu : c.user ≠ user
    · rw [if_pos hu] at h0
      injection h0 with h0
      cases h0
    · rw [if_neg hu] at h0
      push_neg at hu
      cases hs : sdr now fuel s c.id with
      | none => rw [hs] at h0; cases h0
      | some s2 =>
        rw [hs] at h0
        injection h0 with h0
        injection h0 with h0
        rw [Prod.mk.injEq] at h0
        obtain ⟨-, h2⟩ := h0
        subst h2
        rcases get_comment_by_id_elim hg with ⟨hcs, hid, hdel⟩
        exact ⟨c, rfl, hid, hcs, hdel, hu, hs⟩

theorem commentReplies_mem {s : List Comment} {c x : Comment}
    (hx : x ∈ commentReplies s c) :
    x ∈ s ∧ x.parent = some c.id ∧ x.isDeleted = false := by
  unfold commentReplies at hx
  have hperm := List.perm_insertionSort commentCreatedLe
    (s.filter (fun y => y.parent == some c.id && y.isDeleted == false))
  have hx2 := hperm.mem_iff.mp hx
  rcases List.mem_filter.mp hx2 with ⟨hxs, hp⟩
  simp only [Bool.and_eq_true, beq_iff_eq] at hp
  exact ⟨hxs, hp.1, hp.2⟩

theorem deckAncestorsGo_nil (s : List Deck) :
    ∀ (fuel : Nat) (acc : List Deck),
      deckAncestorsGo s fuel none acc = some acc := by
  intro fuel acc
  cases fuel <;> rfl

theorem deckAncestorsGo_step (s : List Deck) (fuel : Nat) (cur : Deck)
    (acc : List Deck) :
    deckAncestorsGo s (fuel+1) (some cur) acc =
      deckAncestorsGo s fuel (deckStep s cur) (cur :: acc) := rfl

/-- Two consecutive creations under the same (user, parent) produce
strictly increasing order values: the first deck is a live sibling when
the second order is computed. -/
theorem create_create_mono {s s1 s2 : List Deck} {user : Nat}
    {id1 t1 id2 t2 : Nat} {n1 n2 : String} {de1 de2 : Option String}
    {c1 c2 : String} {parentId : Option Nat} {p1 p2 : Bool}
    {d1 d2 : Deck}
    (h1 : create_deck s user id1 t1 n1 de1 c1 parentId p1 = .ok (d1, s1))
    (h2 : create_deck s1 user id2 t2 n2 de2 c2 parentId p2 = .ok (d2, s2)) :
    d1.order < d2.order := by
  rcases create_deck_ok_elim h1 with
    ⟨hs1, -, hu1, hl1, -, ho1, hn1, hsome1⟩
  rcases create_deck_ok_elim h2 with
    ⟨-, -, -, -, -, ho2, hn2, hsome2⟩
  have hpp : d1.parent = d2.parent := by
    cases hp : parentId with
    | none => rw [hn1 hp, hn2 hp]
    | some pid => rw [hsome1 pid hp, hsome2 pid hp]
  have hmem : d1 ∈ liveSiblings s1 user d2.parent := by
    refine mem_liveSiblings ?_ hu1 hpp hl1
    rw [hs1]
    exact List.mem_append_right s (List.mem_singleton.mpr rfl)
  have := get_next_order_gt hmem
  rw [ho2]
  exact this

/-! ## Concrete fixture stores used by witnesses and counterexamples -/

/-- A three-deck chain of user 7: `fixA → fixB → fixC`
(`fixC.parent = fixB`, `fixB.parent = fixA`). -/
def fixA : Deck :=
  { id := 1, user := 7, name := "A", description := none,
    colorHex := "#000000", parent := none, order := 0, isPublic := false,
    isDeleted := false, deletedAt := none, createdAt := 10 }

def fixB : Deck :=
  { id := 2, user := 7, name := "B", description := none,
    colorHex := "#000000", parent := some 1, order := 0, isPublic := false,
    isDeleted := false, deletedAt := none, createdAt := 11 }

def fixC : Deck :=
  { id := 3, user := 7, name := "C", description := none,
    colorHex := "#000000", parent := some 2, order := 0, isPublic := false,
    isDeleted := false, deletedAt := none, createdAt := 12 }

def fixD : Deck :=
  { id := 4, user := 7, name := "D", description := none,
    colorHex := "#000000", parent := some 3, order := 0, isPublic := false,
    isDeleted := false, deletedAt := none, createdAt := 13 }

/-- A deck of a different user (user 8). -/
def fixOther : Deck :=
  { id := 5, user := 8, name := "E", description := none,
    colorHex := "#000000", parent := none, order := 0, isPublic := false,
    isDeleted := false, deletedAt := none, createdAt := 14 }

def sChain : List Deck := [fixA, fixB, fixC]

def sChain4 : List Deck := [fixA, fixB, fixC, fixD]

def sUsers : List Deck := [fixA, fixOther]

/-- Two decks forming a raw parent cycle (corrupt data for claim 4). -/
def cycA : Deck :=
  { id := 1, user := 7, name := "X", description := none,
    colorHex := "#000000", parent := some 2, order := 0, isPublic := false,
    isDeleted := false, deletedAt := none, createdAt := 10 }

def cycB : Deck :=
  { id := 2, user := 7, name := "Y", description := none,
    colorHex := "#000000", parent := some 1, order := 0, isPublic := false,
    isDeleted := false, deletedAt := none, createdAt := 11 }

def sCyc : List Deck := [cycA, cycB]

/-- Comments on drop 5: `fixCm2` answers `fixCm1`. -/
def fixCm1 : Comment :=
  { id := 1, drop := 5, user := 7, parent := none, content := some "hi",
    isDeleted := false, deletedAt := none, createdAt := 10 }

def fixCm2 : Comment :=
  { id := 2, drop := 5, user := 7, parent := some 1, content := some "re",
    isDeleted := false, deletedAt := none, createdAt := 11 }

def sComs : List Comment := [fixCm1, fixCm2]

def fixDrop : DropRec := { id := 5, user := 7, deck := 1, deletedAt := none }

def fixDrop6 : DropRec := { id := 6, user := 7, deck := 1, deletedAt := none }

def sDrops : List DropRec := [fixDrop, fixDrop6]

theorem update_deck_found {s : List Deck} {fuel deckId user : Nat}
    {name : Option String} {description : Option String}
    {colorHex : Option String} {order : Option Int} {isPublic : Option Bool}
    {d : Deck} (h : get_deck_by_id s deckId user = some d)
    (parentId : Option Nat) :
    update_deck s fuel deckId user name description colorHex parentId
        order isPublic =
      (let deck1 : Deck :=
        { d with
          name := name.getD d.name,
          description :=
            match description with
            | none => d.description
            | some v => some v,
          colorHex := colorHex.getD d.colorHex,
          isPublic := isPublic.getD d.isPublic,
          order := order.getD d.order }
      match parentId with
      | none => some (.ok (some (deck1, saveDeck s deck1)))
      | some pid =>
        if deckId = pid then some (.error .selfParent)
        else
          match get_deck_by_id s pid user with
          | none => some (.error (.parentNotFound pid))
          | some newParent =>
            match check_circular s deck1.id fuel (some newParent) with
            | none => none
            | some (.error e) => some (.error e)
            | some (.ok _) =>
              let deck2 : Deck := { deck1 with parent := some newParent.id }
              some (.ok (some (deck2, saveDeck s deck2)))) := by
  unfold update_deck
  rw [h]

/-- C6: for any stored, live deck X owned by the acting user, a
reparent naming X as its own parent fails with the self-parent error
and the store is unchanged (the transaction rolls back). -/
theorem claim6_self_parent_rejected (s : List Deck) (fuel user : Nat)
    (name : Option String) (description : Option String)
    (colorHex : Option String) (order : Option Int) (isPublic : Option Bool)
    (X : Deck) (hX : get_deck_by_id s X.id user = some X) :
    update_deck s fuel X.id user name description colorHex (some X.id)
        order isPublic = some (.error .selfParent) ∧
    runUpdateDeck s fuel X.id user name description colorHex (some X.id)
        order isPublic = s := by
  have hupd : update_deck s fuel X.id user name description colorHex
      (some X.id) order isPublic = some (.error .selfParent) := by
    rw [update_deck_found hX (some X.id)]
    dsimp only
    rw [if_pos rfl]
  refine ⟨hupd, ?_⟩
  unfold runUpdateDeck
  rw [hupd]

theorem claim6_witness :
    update_deck sChain 9 1 7 none none none (some 1) none none =
      some (.error .selfParent) ∧
    runUpdateDeck sChain 9 1 7 none none none (some 1) none none = sChain :=
  claim6_self_parent_rejected sChain 9 7 none none none none none fixA
    (by decide)

/-- C5 (amended): a reparent naming null as the new parent is treated
as "parent field not sent": the update succeeds but the deck keeps its
previous parent_id; it does not become a root. -/
theorem claim5_null_parent_is_no_change (s : List Deck)
    (fuel deckId user : Nat) (name : Option String)
    (description : Option String) (colorHex : Option String)
    (order : Option Int) (isPublic : Option Bool) (d : Deck)
    (h : get_deck_by_id s deckId user = some d) :
    ∃ d', update_deck s fuel deckId user name description colorHex none
        order isPublic = some (.ok (some (d', saveDeck s d'))) ∧
      d'.parent = d.parent := by
  refine ⟨{ d with
      name := name.getD d.name,
      description :=
        match description with
        | none => d.description
        | some v => some v,
      colorHex := colorHex.getD d.colorHex,
      isPublic := isPublic.getD d.isPublic,
      order := order.getD d.order }, ?_, rfl⟩
  rw [update_deck_found h none]

theorem claim5_witness :
    ∃ d', update_deck [fixA, fixB] 9 2 7 none none none none none none =
        some (.ok (some (d', saveDeck [fixA, fixB] d'))) ∧
      d'.parent = fixB.parent :=
  claim5_null_parent_is_no_change [fixA, fixB] 9 2 7 none none none none
    none fixB (by decide)

/-- C5 counterexample: with `fixB` a live child of `fixA`, the update
that names null as the new parent returns the deck still parented to
`fixA` — the node does not become a root, contrary to the claim. -/
theorem claim5_counterexample :
    update_deck [fixA, fixB] 9 2 7 none none none none none none =
      some (.ok (some (fixB, [fixA, fixB]))) ∧ fixB.parent ≠ none :=
  ⟨rfl, by decide⟩

/-- C1 (amended): reparenting X under a prospective parent P whose
ancestor-or-self chain contains X is rejected with the store unchanged;
the error is CycleDetected from the upward walk when P ≠ X, but the
earlier self-parent guard fires (SelfParentError) when P = X. -/
theorem claim1_reparent_into_subtree (s : List Deck) (fuel user : Nat)
    (name : Option String) (description : Option String)
    (colorHex : Option String) (order : Option Int) (isPublic : Option Bool)
    (X P : Deck) (l : List Nat)
    (hX : get_deck_by_id s X.id user = some X)
    (hP : get_deck_by_id s P.id user = some P)
    (hchain : chainIds s fuel (some P) = some l) (hmem : X.id ∈ l) :
    (P.id = X.id →
      update_deck s fuel X.id user name description colorHex (some P.id)
        order isPublic = some (.error .selfParent)) ∧
    (P.id ≠ X.id →
      update_deck s fuel X.id user name description colorHex (some P.id)
        order isPublic = some (.error .circularRef)) ∧
    runUpdateDeck s fuel X.id user name description colorHex (some P.id)
      order isPublic = s := by
  by_cases hpx : P.id = X.id
  · have hupd : update_deck s fuel X.id user name description colorHex
        (some P.id) order isPublic = some (.error .selfParent) := by
      rw [update_deck_found hX (some P.id)]
      dsimp only
      rw [if_pos hpx.symm]
    refine ⟨fun _ => hupd, fun hne => absurd hpx hne, ?_⟩
    unfold runUpdateDeck
    rw [hupd]
  · have hupd : update_deck s fuel X.id user name description colorHex
        (some P.id) order isPublic = some (.error .circularRef) := by
      rw [update_deck_found hX (some P.id)]
      dsimp only
      rw [if_neg (fun hh => hpx hh.symm), hP]
      dsimp only
      rw [check_circular_of_chain fuel (some P) l hchain]
      rw [if_pos hmem]
    refine ⟨fun heq => absurd heq hpx, fun _ => hupd, ?_⟩
    unfold runUpdateDeck
    rw [hupd]

/-- C1 witness: on the chain `fixA → fixB → fixC`, reparenting `fixA`
under `fixC` fails with CycleDetected and the store is unchanged. -/
theorem claim1_witness :
    update_deck sChain 9 1 7 none none none (some 3) none none =
      some (.error .circularRef) ∧
    runUpdateDeck sChain 9 1 7 none none none (some 3) none none = sChain := by
  have h := claim1_reparent_into_subtree sChain 9 7 none none none none none
    fixA fixC [3, 2, 1] (by decide) (by decide) (by decide) (by decide)
  exact ⟨h.2.1 (by decide), h.2.2⟩

/-- C1 counterexample: when the prospective parent is the node itself,
the operation fails with SelfParentError (the guard that runs before
the walk), not with CycleDetected as the claim states. -/
theorem claim1_counterexample :
    update_deck sChain 9 1 7 none none none (some 1) none none =
      some (.error .selfParent) ∧
    DeckErr.selfParent ≠ DeckErr.circularRef := by
  exact ⟨rfl, by decide⟩

/-- C10: editing or deleting a live comment as a non-author raises the
permission error (a kind distinct from the not-found results) and the
store is unchanged. -/
theorem claim10_comment_author_only (s : List Comment)
    (cid u now fuel : Nat) (content : String) (c : Comment)
    (hc : get_comment_by_id s cid = some c) (hu : c.user ≠ u) :
    update_comment s cid u content = .error .permissionDenied ∧
    delete_comment s cid u now fuel = some (.error .permissionDenied) ∧
    runUpdateComment s cid u content = s ∧
    runDeleteComment s cid u now fuel = s := by
  have h1 : update_comment s cid u content = .error .permissionDenied := by
    unfold update_comment
    rw [hc]
    dsimp only
    rw [if_pos hu]
  have h2 : delete_comment s cid u now fuel =
      some (.error .permissionDenied) := by
    unfold delete_comment
    rw [hc]
    dsimp only
    rw [if_pos hu]
  refine ⟨h1, h2, ?_, ?_⟩
  · unfold runUpdateComment
    rw [h1]
  · unfold runDeleteComment
    rw [h2]

theorem claim10_witness :
    update_comment sComs 1 9 "edit" = .error .permissionDenied ∧
    delete_comment sComs 1 9 99 5 = some (.error .permissionDenied) ∧
    runUpdateComment sComs 1 9 "edit" = sComs ∧
    runDeleteComment sComs 1 9 99 5 = sComs :=
  claim10_comment_author_only sComs 1 9 99 5 "edit" fixCm1 (by decide)
    (by decide)

/-- C3 (amended): `_get_next_order` returns max(order among live
siblings) + 1, or 0 with no live siblings, so consecutive creations
under one parent with no interleaved deletion yield strictly increasing
orders; but the maximum ranges over live rows only, so the order of a
deleted sibling can be reused (see the counterexample). -/
theorem claim3_next_order_allocation (s s1 s2 s3 : List Deck) (user : Nat)
    (parent : Option Nat) (parentId : Option Nat)
    (id1 t1 id2 t2 id3 t3 : Nat) (n1 n2 n3 : String)
    (de1 de2 de3 : Option String) (c1 c2 c3 : String) (p1 p2 p3 : Bool)
    (d1 d2 d3 : Deck) :
    (liveSiblings s user parent = [] → get_next_order s user parent = 0) ∧
    (liveSiblings s user parent ≠ [] →
      ∃ d ∈ liveSiblings s user parent,
        get_next_order s user parent = d.order + 1 ∧
        ∀ x ∈ liveSiblings s user parent, x.order ≤ d.order) ∧
    (create_deck s user id1 t1 n1 de1 c1 parentId p1 = .ok (d1, s1) →
      create_deck s1 user id2 t2 n2 de2 c2 parentId p2 = .ok (d2, s2) →
      create_deck s2 user id3 t3 n3 de3 c3 parentId p3 = .ok (d3, s3) →
      d1.order < d2.order ∧ d2.order < d3.order) := by
  refine ⟨get_next_order_empty, get_next_order_max, ?_⟩
  intro h1 h2 h3
  exact ⟨create_create_mono h1 h2, create_create_mono h2 h3⟩

/-- The deck produced by the second creation in the scripted runs. -/
def wB : Deck :=
  { id := 2, user := 7, name := "B", description := none,
    colorHex := "#000000", parent := none, order := 1, isPublic := false,
    isDeleted := false, deletedAt := none, createdAt := 11 }

def wBdel : Deck :=
  { id := 2, user := 7, name := "B", description := none,
    colorHex := "#000000", parent := none, order := 1, isPublic := false,
    isDeleted := true, deletedAt := some 50, createdAt := 11 }

/-- Third creation when `wB` was deleted in between: the order value 1
is handed out again. -/
def wC : Deck :=
  { id := 3, user := 7, name := "C", description := none,
    colorHex := "#000000", parent := none, order := 1, isPublic := false,
    isDeleted := false, deletedAt := none, createdAt := 12 }

/-- Third creation with `wB` still live: order 2. -/
def wC2 : Deck :=
  { id := 3, user := 7, name := "C", description := none,
    colorHex := "#000000", parent := none, order := 2, isPublic := false,
    isDeleted := false, deletedAt := none, createdAt := 12 }

theorem claim3_witness :
    fixA.order < wB.order ∧ wB.order < wC2.order :=
  (claim3_next_order_allocation [] [fixA] [fixA, wB] [fixA, wB, wC2] 7 none
    none 1 10 2 11 3 12 "A" "B" "C" none none none "#000000" "#000000"
    "#000000" false false false fixA wB wC2).2.2 rfl rfl rfl

/-- C3 counterexample: create A (order 0) and B (order 1) under the
root, soft-delete B, then create C — C receives order 1 again, the same
value the deleted sibling B holds, so orders are reused after sibling
deletion and the three creations are not strictly increasing. -/
theorem claim3_counterexample :
    create_deck [] 7 1 10 "A" none "#000000" none false =
      .ok (fixA, [fixA]) ∧
    create_deck [fixA] 7 2 11 "B" none "#000000" none false =
      .ok (wB, [fixA, wB]) ∧
    delete_deck [fixA, wB] 2 7 50 9 = some (true, [fixA, wBdel]) ∧
    create_deck [fixA, wBdel] 7 3 12 "C" none "#000000" none false =
      .ok (wC, [fixA, wBdel, wC]) ∧
    wB.order = 1 ∧ wC.order = 1 :=
  ⟨rfl, rfl, rfl, rfl, rfl, rfl⟩

/-- C7: for a node at depth 3 whose chain is root → D1 → D2 → node,
`breadcrumb` returns exactly [root, D1, D2, node], i.e. the ancestor
chain root-first with the node itself appended last. -/
theorem claim7_breadcrumb_order (s : List Deck) (fuel : Nat)
    (root d1 d2 node : Deck)
    (hnode : node.parent = some d2.id) (hfd2 : findN s d2.id = some d2)
    (hd2 : d2.parent = some d1.id) (hfd1 : findN s d1.id = some d1)
    (hd1 : d1.parent = some root.id) (hfroot : findN s root.id = some root)
    (hroot : root.parent = none) (hfuel : 3 ≤ fuel) :
    breadcrumb s node fuel = some [root, d1, d2, node] := by
  obtain ⟨f, rfl⟩ : ∃ f, fuel = f + 1 + 1 + 1 := ⟨fuel - 3, by omega⟩
  have h0 : deckStep s node = some d2 := by
    show (match node.parent with
      | none => none
      | some pid => findN s pid) = some d2
    rw [hnode]
    exact hfd2
  have h1 : deckStep s d2 = some d1 := by
    show (match d2.parent with
      | none => none
      | some pid => findN s pid) = some d1
    rw [hd2]
    exact hfd1
  have h2 : deckStep s d1 = some root := by
    show (match d1.parent with
      | none => none
      | some pid => findN s pid) = some root
    rw [hd1]
    exact hfroot
  have h3 : deckStep s root = none := by
    show (match root.parent with
      | none => none
      | some pid => findN s pid) = none
    rw [hroot]
  unfold breadcrumb get_ancestors
  rw [h0, deckAncestorsGo_step, h1, deckAncestorsGo_step, h2,
    deckAncestorsGo_step, h3, deckAncestorsGo_nil]
  rfl

theorem claim7_witness :
    breadcrumb sChain4 fixD 9 = some [fixA, fixB, fixC, fixD] :=
  claim7_breadcrumb_order sChain4 9 fixA fixB fixC fixD rfl (by decide)
    rfl (by decide) rfl (by decide) rfl (by omega)

/-- C8: scope isolation.  Creating or reparenting a deck under another
user's deck fails as parent-not-found before any mutation; creating a
comment whose parent belongs to a different drop is rejected before any
mutation; and on scope-closed data neither the ancestors walk nor the
recursive subtree ever contains a node of another scope. -/
theorem claim8_scope_isolation :
    (∀ (s : List Deck) (user newId now : Nat) (name : String)
      (description : Option String) (colorHex : String) (pid : Nat)
      (isPublic : Bool) (dp : Deck), NodupIds s → findN s pid = some dp →
      dp.user ≠ user →
      create_deck s user newId now name description colorHex (some pid)
        isPublic = .error (.parentNotFound pid) ∧
      runCreateDeck s user newId now name description colorHex (some pid)
        isPublic = s) ∧
    (∀ (s : List Deck) (fuel deckId user : Nat) (name : Option String)
      (description : Option String) (colorHex : Option String)
      (order : Option Int) (isPublic : Option Bool) (pid : Nat)
      (dX dp : Deck), NodupIds s →
      get_deck_by_id s deckId user = some dX → findN s pid = some dp →
      dp.user ≠ user →
      update_deck s fuel deckId user name description colorHex (some pid)
        order isPublic = some (.error (.parentNotFound pid)) ∧
      runUpdateDeck s fuel deckId user name description colorHex (some pid)
        order isPublic = s) ∧
    (∀ (drops : List DropRec) (s : List Comment) (user dropId : Nat)
      (content : String) (pid newId now : Nat) (dr : DropRec) (pc : Comment),
      drops.find? (fun d =>
        d.id == dropId && d.deletedAt == (none : Option Nat)) = some dr →
      get_comment_by_id s pid = some pc → pc.drop ≠ dropId →
      create_comment drops s user dropId content (some pid) newId now =
        .error .parentWrongDrop ∧
      runCreateComment drops s user dropId content (some pid) newId now = s) ∧
    (∀ (s : List Deck) (fuel : Nat) (d : Deck) (l : List Deck),
      ScopeClosed s → d ∈ s → get_ancestors s d fuel = some l →
      ∀ x ∈ l, x.user = d.user) ∧
    (∀ (s : List Deck) (fuel : Nat) (d : Deck) (t : NTree Deck) (x : Deck),
      ScopeClosed s → d ∈ s → deckTreeF s fuel d = some t → InTree x t →
      x.user = d.user) := by
  refine ⟨?_, ?_, ?_, ?_, ?_⟩
  · intro s user newId now name description colorHex pid isPublic dp
      hnd hf hu
    have hnone := get_deck_by_id_other_user hnd hf hu
    have hcre : create_deck s user newId now name description colorHex
        (some pid) isPublic = .error (.parentNotFound pid) := by
      unfold create_deck
      dsimp only
      rw [hnone]
    refine ⟨hcre, ?_⟩
    unfold runCreateDeck
    rw [hcre]
  · intro s fuel deckId user name description colorHex order isPublic pid
      dX dp hnd hX hP hu
    have hne : deckId ≠ pid := by
      intro he
      rcases get_deck_by_id_elim hX with ⟨hXs, hXid, hXu, -⟩
      rcases findN_nid hP with ⟨hPid, hPs⟩
      have hxp : dX = dp := mem_id_unique hnd hXs hPs (by
        show dX.id = dp.id
        rw [hXid, he]
        exact hPid.symm)
      rw [hxp] at hXu
      exact hu hXu
    have hupd : update_deck s fuel deckId user name description colorHex
        (some pid) order isPublic = some (.error (.parentNotFound pid)) := by
      rw [update_deck_found hX (some pid)]
      dsimp only
      rw [if_neg hne, get_deck_by_id_other_user hnd hP hu]
    refine ⟨hupd, ?_⟩
    unfold runUpdateDeck
    rw [hupd]
  · intro drops s user dropId content pid newId now dr pc hdrop hpc hneq
    have hcre : create_comment drops s user dropId content (some pid)
        newId now = .error .parentWrongDrop := by
      unfold create_comment
      rw [hdrop]
      dsimp only
      rw [hpc]
      dsimp only
      rw [if_pos hneq]
    refine ⟨hcre, ?_⟩
    unfold runCreateComment
    rw [hcre]
  · intro s fuel d l hsc hd h
    exact get_ancestors_scope hsc hd h
  · intro s fuel d t x hsc hd h hx
    exact (deckTreeF_scope hsc fuel d t hd h x hx).1

theorem claim8_witness :
    (create_deck sUsers 7 9 20 "N" none "#000000" (some 5) false =
        .error (.parentNotFound 5) ∧
      runCreateDeck sUsers 7 9 20 "N" none "#000000" (some 5) false =
        sUsers) ∧
    (create_comment sDrops sComs 7 6 "x" (some 1) 9 30 =
        .error .parentWrongDrop ∧
      runCreateComment sDrops sComs 7 6 "x" (some 1) 9 30 = sComs) ∧
    fixA.user = fixC.user := by
  refine ⟨claim8_scope_isolation.1 sUsers 7 9 20 "N" none "#000000" 5 false
    fixOther (by decide) (by decide) (by decide), ?_, ?_⟩
  · exact claim8_scope_isolation.2.2.1 sDrops sComs 7 6 "x" 1 9 30 fixDrop6
      fixCm1 (by decide) (by decide) (by decide)
  · exact claim8_scope_isolation.2.2.2.1 sChain 9 fixC [fixA, fixB]
      (by decide) (by decide) (by decide) fixA (by decide)

/-- C4 (amended): the ancestry walks `Deck.depth`, `Deck.get_ancestors`
and `Deck.get_root` contain no cycle detection: on acyclic data
(witnessed by a rank decreasing along raw parent links) they terminate,
but on data where the walk state revisits the starting node they never
finish for any fuel bound — no CorruptHierarchy condition is signalled,
the loop simply never ends. -/
theorem claim4_ancestry_walks (s : List Deck) (rk : Nat → Nat) (d : Deck)
    (k : Nat) :
    (RawRankDec s rk → d ∈ s → ∀ fuel, rk d.id ≤ fuel →
      (deckDepth s d fuel).isSome ∧ (get_ancestors s d fuel).isSome ∧
      (get_root s fuel d).isSome) ∧
    (0 < k → stepIter s k (some d) = some d →
      ∀ fuel, deckDepth s d fuel = none ∧ get_ancestors s d fuel = none ∧
        get_root s fuel d = none) := by
  constructor
  · intro hrk hd fuel hle
    exact ⟨deckDepthGo_terminates hrk fuel d 0 hd hle,
      deckAncestorsGo_terminates hrk fuel d [] hd hle,
      get_root_terminates hrk fuel d hd hle⟩
  · intro hk hcyc fuel
    have hne := stepIter_ne_none hk hcyc
    have hstep : ∀ m, stepIter s m (deckStep s d) ≠ none := by
      intro m
      have heq : stepIter s m (deckStep s d) =
          stepIter s (m+1) (some d) := by
        have hc : m + 1 = 1 + m := by omega
        rw [hc, stepIter_add]
        rfl
      rw [heq]
      exact hne (m+1)
    exact ⟨deckDepthGo_none fuel (deckStep s d) 0 hstep,
      deckAncestorsGo_none fuel (deckStep s d) [] hstep,
      get_root_none fuel d hne⟩

theorem claim4_witness :
    ((deckDepth sChain fixC 9).isSome ∧
      (get_ancestors sChain fixC 9).isSome ∧
      (get_root sChain 9 fixC).isSome) ∧
    (deckDepth sCyc cycA 5 = none ∧ get_ancestors sCyc cycA 5 = none ∧
      get_root sCyc 5 cycA = none) :=
  ⟨(claim4_ancestry_walks sChain (fun i => i) fixC 2).1 (by decide)
      (by decide) 9 (by decide),
    (claim4_ancestry_walks sCyc (fun i => i) cycA 2).2 (by decide)
      (by decide) 5⟩

/-- C4 counterexample: on the two-deck parent cycle `sCyc` the walks
never return for any fuel bound, instead of aborting with a
CorruptHierarchy signal as the claim states. -/
theorem claim4_counterexample :
    (¬ ∃ n, (deckDepth sCyc cycA n).isSome) ∧
    (¬ ∃ n, (get_ancestors sCyc cycA n).isSome) ∧
    (¬ ∃ n, (get_root sCyc n cycA).isSome) := by
  have hcyc : stepIter sCyc 2 (some cycA) = some cycA := by decide
  have hne := stepIter_ne_none (by decide : 0 < 2) hcyc
  have hstep : ∀ m, stepIter sCyc m (deckStep sCyc cycA) ≠ none := by
    intro m
    have heq : stepIter sCyc m (deckStep sCyc cycA) =
        stepIter sCyc (m+1) (some cycA) := by
      have hc : m + 1 = 1 + m := by omega
      rw [hc, stepIter_add]
      rfl
    rw [heq]
    exact hne (m+1)
  refine ⟨?_, ?_, ?_⟩
  · rintro ⟨n, hn⟩
    have : deckDepth sCyc cycA n = none :=
      deckDepthGo_none n (deckStep sCyc cycA) 0 hstep
    rw [this] at hn
    simp at hn
  · rintro ⟨n, hn⟩
    have : get_ancestors sCyc cycA n = none :=
      deckAncestorsGo_none n (deckStep sCyc cycA) [] hstep
    rw [this] at hn
    simp at hn
  · rintro ⟨n, hn⟩
    have : get_root sCyc n cycA = none := get_root_none n cycA hne
    rw [this] at hn
    simp at hn

/-- C2: cascading soft delete.  On well-formed data (distinct ids,
acyclic live-parent chains, no live node under a deleted ancestor),
after a successful `delete`, every node that was live and a descendant
of the target via live parent links is stored with `is_deleted = true`
and `deleted_at = now`; afterwards no live node has a soft-deleted
ancestor; and rows that were already soft-deleted are left untouched
(each step re-reads only currently-live children).  Stated for both
`DeckService.delete_deck` and `CommentService.delete_comment`; the
`delete()` row stamping is modelled from the spec since
`SoftDeleteModel` is not among the sources. -/
theorem claim2_cascade_soft_delete :
    (∀ (s s' : List Deck) (deckId user now fuel : Nat),
      NodupIds s → Acyclic s → ClosedStore s →
      delete_deck s deckId user now fuel = some (true, s') →
      (∀ (m : Nat) (a : Deck) (k : Nat), findN s m = some a →
        upIter s (k+1) m = some deckId →
        ∃ b, findN s' m = some b ∧ b.isDeleted = true ∧
          b.deletedAt = some now) ∧
      (∀ (k m p : Nat) (a b : Deck), findN s' m = some a →
        a.deletedAt = none → parIter s' (k+1) m = some p →
        findN s' p = some b → b.deletedAt = none) ∧
      (∀ (m : Nat) (a : Deck), findN s m = some a → a.deletedAt ≠ none →
        m ≠ deckId → findN s' m = some a)) ∧
    (∀ (s s' : List Comment) (commentId user now fuel : Nat),
      NodupIds s → Acyclic s → ClosedStore s →
      delete_comment s commentId user now fuel = some (.ok (true, s')) →
      (∀ (m : Nat) (a : Comment) (k : Nat), findN s m = some a →
        upIter s (k+1) m = some commentId →
        ∃ b, findN s' m = some b ∧ b.isDeleted = true ∧
          b.deletedAt = some now) ∧
      (∀ (k m p : Nat) (a b : Comment), findN s' m = some a →
        a.deletedAt = none → parIter s' (k+1) m = some p →
        findN s' p = some b → b.deletedAt = none) ∧
      (∀ (m : Nat) (a : Comment), findN s m = some a →
        a.deletedAt ≠ none → m ≠ commentId → findN s' m = some a)) := by
  constructor
  · intro s s' deckId user now fuel hnd hac hcl hdel
    rcases delete_deck_true_elim hdel with ⟨d, -, hid, -, -, hsdr⟩
    subst hid
    refine ⟨?_, ?_, ?_⟩
    · intro m a k hm hchain
      exact ⟨mark a now,
        sdr_complete fuel s d.id s' hnd hac hsdr m a k hm hchain, rfl, rfl⟩
    · intro k m p a b hm hda hpi hfp
      exact sdr_closed hnd hac hcl hsdr k m a p b hm hda hpi hfp
    · intro m a hm hdel2 hne
      rcases sdr_sound fuel s d.id s' hnd hsdr m a hm with h1 | ⟨-, hcase⟩
      · exact h1
      · exfalso
        rcases hcase with rfl | ⟨hda, -⟩
        · exact hne rfl
        · exact hdel2 hda
  · intro s s' commentId user now fuel hnd hac hcl hdel
    rcases delete_comment_true_elim hdel with ⟨c, -, hid, -, -, -, hsdr⟩
    subst hid
    refine ⟨?_, ?_, ?_⟩
    · intro m a k hm hchain
      exact ⟨mark a now,
        sdr_complete fuel s c.id s' hnd hac hsdr m a k hm hchain, rfl, rfl⟩
    · intro k m p a b hm hda hpi hfp
      exact sdr_closed hnd hac hcl hsdr k m a p b hm hda hpi hfp
    · intro m a hm hdel2 hne
      rcases sdr_sound fuel s c.id s' hnd hsdr m a hm with h1 | ⟨-, hcase⟩
      · exact h1
      · exfalso
        rcases hcase with rfl | ⟨hda, -⟩
        · exact hne rfl
        · exact hdel2 hda

/-- The stores left by the scripted cascades used in witnesses. -/
def w2B : Deck :=
  { id := 2, user := 7, name := "B", description := none,
    colorHex := "#000000", parent := some 1, order := 0, isPublic := false,
    isDeleted := true, deletedAt := some 99, createdAt := 11 }

def w2C : Deck :=
  { id := 3, user := 7, name := "C", description := none,
    colorHex := "#000000", parent := some 2, order := 0, isPublic := false,
    isDeleted := true, deletedAt := some 99, createdAt := 12 }

def w2Cm1 : Comment :=
  { id := 1, drop := 5, user := 7, parent := none, content := some "hi",
    isDeleted := true, deletedAt := some 99, createdAt := 10 }

def w2Cm2 : Comment :=
  { id := 2, drop := 5, user := 7, parent := some 1, content := some "re",
    isDeleted := true, deletedAt := some 99, createdAt := 11 }

theorem claim2_witness :
    (∃ b : Deck, findN [fixA, w2B, w2C] 3 = some b ∧ b.isDeleted = true ∧
      b.deletedAt = some 99) ∧
    (∃ b : Comment, findN [w2Cm1, w2Cm2] 2 = some b ∧ b.isDeleted = true ∧
      b.deletedAt = some 99) := by
  constructor
  · exact (claim2_cascade_soft_delete.1 sChain [fixA, w2B, w2C] 2 7 99 9
      (by decide) (acyclic_of_rank (show RankDec sChain (fun i => i) by decide))
      (by decide) rfl).1 3 fixC 0 (by decide) (by decide)
  · exact (claim2_cascade_soft_delete.2 sComs [w2Cm1, w2Cm2] 1 7 99 9
      (by decide) (acyclic_of_rank (show RankDec sComs (fun i => i) by decide))
      (by decide) rfl).1 2 fixCm2 0 (by decide) (by decide)

/-- C9: the recursive tree projection visits only live nodes and orders
each level canonically (the `order` field for decks, the creation
timestamp for comments); after a cascade soft-deletes a middle node,
that node and its descendants remain stored with `is_deleted = true`
but appear in no projected tree except as an explicitly passed root. -/
theorem claim9_projection_live_ordered :
    (∀ (s : List Deck) (fuel : Nat) (d : Deck) (t : NTree Deck),
      deckTreeF s fuel d = some t →
      (∀ x, InTree x t → x = d ∨ (x ∈ s ∧ x.isDeleted = false)) ∧
      TreeOrderedBy deckOrderLe t) ∧
    (∀ (s : List Comment) (fuel : Nat) (c : Comment) (t : NTree Comment),
      commentTreeF s fuel c = some t →
      (∀ x, InTree x t → x = c ∨ (x ∈ s ∧ x.isDeleted = false)) ∧
      TreeOrderedBy commentCreatedLe t) ∧
    (∀ (s s' : List Deck) (deckId user now fuel m : Nat) (a : Deck),
      NodupIds s → Acyclic s →
      delete_deck s deckId user now fuel = some (true, s') →
      findN s m = some a →
      (m = deckId ∨ ∃ k, upIter s (k+1) m = some deckId) →
      (∃ b, findN s' m = some b ∧ b.isDeleted = true) ∧
      (∀ (r : Deck) (fuel2 : Nat) (t : NTree Deck) (x : Deck),
        deckTreeF s' fuel2 r = some t → InTree x t → x.id = m → x = r)) := by
  refine ⟨?_, ?_, ?_⟩
  · intro s fuel d t h
    constructor
    · exact @treeF_mem Deck (deckChildren s)
        (fun y => y ∈ s ∧ y.isDeleted = false)
        (fun dd y hy => And.intro (deckChildren_mem hy).1
          (deckChildren_mem hy).2.2) fuel d t h
    · refine treeF_ordered ?_ fuel d t h
      intro dd
      exact List.sorted_insertionSort deckOrderLe _
  · intro s fuel c t h
    constructor
    · exact @treeF_mem Comment (commentReplies s)
        (fun y => y ∈ s ∧ y.isDeleted = false)
        (fun dd y hy => And.intro (commentReplies_mem hy).1
          (commentReplies_mem hy).2.2) fuel c t h
    · refine treeF_ordered ?_ fuel c t h
      intro dd
      exact List.sorted_insertionSort commentCreatedLe _
  · intro s s' deckId user now fuel m a hnd hac hdel hm hdesc
    rcases delete_deck_true_elim hdel with ⟨d, -, hid, -, -, hsdr⟩
    subst hid
    have hmark : findN s' m = some (mark a now) := by
      rcases hdesc with rfl | ⟨k, hk⟩
      · exact sdr_marks_root hsdr hm
      · exact sdr_complete fuel s d.id s' hnd hac hsdr m a k hm hk
    have hnd' : NodupIds s' := (sdr_marked fuel s d.id s' hsdr).nodup hnd
    constructor
    · exact ⟨mark a now, hmark, rfl⟩
    · intro r fuel2 t x ht hx hxm
      have hmem := @treeF_mem Deck (deckChildren s')
        (fun y => y ∈ s' ∧ y.isDeleted = false)
        (fun dd y hy => And.intro (deckChildren_mem hy).1
          (deckChildren_mem hy).2.2) fuel2 r t ht x hx
      rcases hmem with rfl | ⟨hxs, hxl⟩
      · rfl
      · exfalso
        have hfx : findN s' m = some x := by
          have h2 := findN_of_mem_nodup hnd' hxs
          rw [← hxm]
          exact h2
        rw [hmark] at hfx
        have hxval : mark a now = x := Option.some.inj hfx
        rw [← hxval] at hxl
        have : (mark a now).isDeleted = true := rfl
        rw [this] at hxl
        cases hxl

theorem claim9_witness :
    (∃ b : Deck, findN [fixA, w2B, w2C] 2 = some b ∧ b.isDeleted = true) ∧
    TreeOrderedBy deckOrderLe (NTree.node fixA []) ∧
    TreeOrderedBy commentCreatedLe
      (NTree.node fixCm1 [NTree.node fixCm2 []]) := by
  refine ⟨?_, ?_, ?_⟩
  · exact (claim9_projection_live_ordered.2.2 sChain [fixA, w2B, w2C] 2 7
      99 9 2 fixB (by decide)
      (acyclic_of_rank (show RankDec sChain (fun i => i) by decide))
      rfl (by decide) (Or.inl rfl)).1
  · exact (claim9_projection_live_ordered.1 [fixA, w2B, w2C] 5 fixA
      (NTree.node fixA []) rfl).2
  · exact (claim9_projection_live_ordered.2.1 sComs 5 fixCm1
      (NTree.node fixCm1 [NTree.node fixCm2 []]) rfl).2
